import Mathlib

/-!
Verification of the route-planning core of the uOttahack-2026 repository
(src/routing.py and the grid-connectivity filter of src/main.py).

Numeric model: the Python code computes with floats; we model the computation
with exact arithmetic.  Cell attributes and vessel parameters are fractions
(`Fr`, an integer numerator over a positive natural denominator, kept
unreduced so that every operation reduces in the kernel), and accumulated
costs live in the quadratic extension `Q2` of the fractions by the square
root of two, which is exactly the set of values the search can produce:
every edge weight is a fraction times a step distance, and a step distance
in the 8-connected grid is 1 (cardinal step) or the square root of 2
(diagonal step).  Both carriers are bridged to the real numbers, and all
order reasoning is done through that bridge.
-/


/-- Exact fractions: an integer numerator over a positive natural
denominator.  Values are not reduced; all comparisons cross-multiply, so
every operation and comparison reduces inside the kernel. -/
structure Fr where
  num : ℤ
  den : ℕ
  den_pos : 0 < den

namespace Fr

def ofInt (n : ℤ) : Fr := ⟨n, 1, Nat.one_pos⟩

instance : OfNat Fr (n : ℕ) := ⟨ofInt n⟩

def add (a b : Fr) : Fr :=
  ⟨a.num * b.den + b.num * a.den, a.den * b.den, Nat.mul_pos a.den_pos b.den_pos⟩

def neg (a : Fr) : Fr := ⟨-a.num, a.den, a.den_pos⟩

def sub (a b : Fr) : Fr := add a (neg b)

def mul (a b : Fr) : Fr :=
  ⟨a.num * b.num, a.den * b.den, Nat.mul_pos a.den_pos b.den_pos⟩

/-- Comparison by cross multiplication. -/
def le (a b : Fr) : Prop := a.num * (b.den : ℤ) ≤ b.num * (a.den : ℤ)

def lt (a b : Fr) : Prop := a.num * (b.den : ℤ) < b.num * (a.den : ℤ)

instance (a b : Fr) : Decidable (le a b) := by unfold le; infer_instance

instance (a b : Fr) : Decidable (lt a b) := by unfold lt; infer_instance

/-- The larger of two fractions (Python `max`). -/
def fmax (a b : Fr) : Fr := if le a b then b else a

/-- Multiplicative inverse; `0` maps to `0` (never hit by the router, whose
divisors are clamped to at least 1/10 first). -/
def inv (a : Fr) : Fr :=
  if h : 0 < a.num then
    ⟨(a.den : ℤ), a.num.toNat, by omega⟩
  else if h2 : a.num < 0 then
    ⟨-(a.den : ℤ), (-a.num).toNat, by omega⟩
  else
    ofInt 0

noncomputable def toReal (a : Fr) : ℝ := (a.num : ℝ) / (a.den : ℝ)

end Fr

/-- Elements of the quadratic extension by the square root of two:
`a + b * sqrt 2` with `a b : Fr`.  Every cost value the router manipulates
has this form. -/
structure Q2 where
  a : Fr
  b : Fr

namespace Q2

def ofFr (c : Fr) : Q2 := ⟨c, 0⟩

def sqrt2 : Q2 := ⟨0, 1⟩

instance : OfNat Q2 (n : ℕ) := ⟨ofFr (Fr.ofInt n)⟩

def add (x y : Q2) : Q2 := ⟨x.a.add y.a, x.b.add y.b⟩

def sub (x y : Q2) : Q2 := ⟨x.a.sub y.a, x.b.sub y.b⟩

/-- Scalar multiplication by a fraction. -/
def smul (c : Fr) (x : Q2) : Q2 := ⟨c.mul x.a, c.mul x.b⟩

/-- Sign test, by the case analysis of `real_sqrt2_nonneg_iff`. -/
def nonneg (x : Q2) : Prop :=
  (Fr.le 0 x.a ∧ Fr.le 0 x.b) ∨
    (Fr.lt x.a 0 ∧ Fr.le 0 x.b ∧ Fr.le (x.a.mul x.a) ((Fr.ofInt 2).mul (x.b.mul x.b))) ∨
    (Fr.le 0 x.a ∧ Fr.lt x.b 0 ∧ Fr.le ((Fr.ofInt 2).mul (x.b.mul x.b)) (x.a.mul x.a))

instance (x : Q2) : Decidable (nonneg x) := by unfold nonneg; infer_instance

def le (x y : Q2) : Prop := nonneg (sub y x)

def lt (x y : Q2) : Prop := ¬ le y x

instance (x y : Q2) : Decidable (le x y) := by unfold le; infer_instance

instance (x y : Q2) : Decidable (lt x y) := by unfold lt; infer_instance

noncomputable def toReal (x : Q2) : ℝ := x.a.toReal + x.b.toReal * Real.sqrt 2

end Q2

/-- Per-cell attributes (class GridCell of src/main.py; the router reads
risk, time, fuel, weather and the navigability flag is_clickable). -/
structure GridCell where
  risk : Fr
  time : Fr
  fuel : Fr
  weather : Fr
  is_clickable : Bool

/-- Vessel profile (class Ship of src/routing.py). -/
structure Ship where
  base_speed : Fr
  base_fuel_rate : Fr
  durability : Fr

/-- A label of the multi-objective search (class Label of src/routing.py):
an accumulated cost vector together with an optional back reference to the
predecessor node and label. -/
inductive Lab (R C : ℕ) : Type where
  | mk (risk : Q2) (time : Q2) (fuel : Q2)
      (predecessor : Option ((Fin R × Fin C) × Lab R C)) : Lab R C

namespace Lab

def risk : Lab R C → Q2 | .mk r _ _ _ => r

def time : Lab R C → Q2 | .mk _ t _ _ => t

def fuel : Lab R C → Q2 | .mk _ _ f _ => f

def predecessor : Lab R C → Option ((Fin R × Fin C) × Lab R C) | .mk _ _ _ p => p

end Lab

/-- Dominance (function dominates of src/routing.py): componentwise at most,
and strictly below in at least one component. -/
def dominates {R C : ℕ} (a b : Lab R C) : Prop :=
  Q2.le a.risk b.risk ∧ Q2.le a.time b.time ∧ Q2.le a.fuel b.fuel ∧
    (Q2.lt a.risk b.risk ∨ Q2.lt a.time b.time ∨ Q2.lt a.fuel b.fuel)

instance {R C : ℕ} (a b : Lab R C) : Decidable (dominates a b) := by
  unfold dominates; infer_instance

/-- The eight step offsets of the router (cardinal, then diagonal). -/
def directions : List (ℤ × ℤ) :=
  [(-1, 0), (1, 0), (0, -1), (0, 1), (-1, -1), (-1, 1), (1, -1), (1, 1)]

/-- The in-bounds 8-connected neighbors of a node (function neighbors of
src/routing.py). -/
def neighbors (R C : ℕ) (node : Fin R × Fin C) : List (Fin R × Fin C) :=
  directions.filterMap (fun d =>
    let nr : ℤ := (node.1 : ℤ) + d.1
    let nc : ℤ := (node.2 : ℤ) + d.2
    if h : 0 ≤ nr ∧ nr < R ∧ 0 ≤ nc ∧ nc < C then
      some (⟨nr.toNat, by omega⟩, ⟨nc.toNat, by omega⟩)
    else none)

/-- Euclidean distance between grid cells (function distance of
src/routing.py).  The router applies it only to a node and one of its
8-connected neighbors, where the squared separation is 1 or 2 and the
distance is exactly 1 or the square root of 2, both representable in `Q2`;
the final catch-all branch is outside that range and is never reached from
the router. -/
def distance (R C : ℕ) (a b : Fin R × Fin C) : Q2 :=
  let s : ℤ := ((a.1 : ℤ) - (b.1 : ℤ)) ^ 2 + ((a.2 : ℤ) - (b.2 : ℤ)) ^ 2
  if s = 2 then Q2.sqrt2
  else if s = 1 then Q2.ofFr 1
  else if s = 0 then 0
  else Q2.ofFr (Fr.ofInt s)

/-- The clamp floor 0.1 used for vessel divisors. -/
def tenth : Fr := ⟨1, 10, by omega⟩

/-- Precomputed 1.0 / max(0.1, ship.durability) of pareto_optimal_path. -/
def inv_durability (ship : Ship) : Fr := (Fr.fmax tenth ship.durability).inv

/-- Precomputed 1.0 / max(0.1, ship.base_speed) of pareto_optimal_path. -/
def inv_speed (ship : Ship) : Fr := (Fr.fmax tenth ship.base_speed).inv

/-- One routing problem instance: grid, vessel, blend coefficients and the
two endpoints. -/
structure Cfg (R C : ℕ) where
  grid : Fin R × Fin C → GridCell
  ship : Ship
  alpha : Fr
  gamma : Fr
  start : Fin R × Fin C
  goal : Fin R × Fin C

variable {R C : ℕ}

/-- Risk increment for entering cell nb (src/routing.py lines 217 to 219):
max(0, nb.risk + alpha * nb.weather * inv_durability).  It does not scale
with the step distance. -/
def risk_increment (cfg : Cfg R C) (nb : Fin R × Fin C) : Fr :=
  let cell := cfg.grid nb
  Fr.fmax 0 (cell.risk.add ((cfg.alpha.mul cell.weather).mul (inv_durability cfg.ship)))

/-- Time increment (src/routing.py line 225): cell.time * d * inv_speed. -/
def time_increment (cfg : Cfg R C) (current_node nb : Fin R × Fin C) : Q2 :=
  let cell := cfg.grid nb
  Q2.smul (cell.time.mul (inv_speed cfg.ship)) (distance R C current_node nb)

/-- Fuel increment (src/routing.py line 222):
(base_fuel_rate * cell.fuel) * (1 + gamma * cell.weather * inv_durability) * d.
Note that base_fuel_rate enters unclamped. -/
def fuel_increment (cfg : Cfg R C) (current_node nb : Fin R × Fin C) : Q2 :=
  let cell := cfg.grid nb
  Q2.smul ((cfg.ship.base_fuel_rate.mul cell.fuel).mul
    ((1 : Fr).add ((cfg.gamma.mul cell.weather).mul (inv_durability cfg.ship))))
    (distance R C current_node nb)

/-- The candidate label built when extending current_label from current_node
to the neighbor nb (src/routing.py lines 227 to 232). -/
def new_label (cfg : Cfg R C) (current_label : Lab R C)
    (current_node nb : Fin R × Fin C) : Lab R C :=
  Lab.mk (current_label.risk.add (Q2.ofFr (risk_increment cfg nb)))
    (current_label.time.add (time_increment cfg current_node nb))
    (current_label.fuel.add (fuel_increment cfg current_node nb))
    (some (current_node, current_label))

/-- The mutable state of the search: the per-node label lists and the list
of pending queue entries.  The priority key of the Python heap is not
modeled; instead the step relation below may pop any pending entry, which
subsumes every possible heap ordering (including the scalarized one of the
source, heuristic included), so every theorem quantified over all runs in
particular covers the run the Python code performs. -/
structure RState (R C : ℕ) where
  LABELS : Fin R × Fin C → List (Lab R C)
  OPEN : List (Lab R C × (Fin R × Fin C))

/-- Relaxation of one neighbor nb (body of the for loop, src/routing.py
lines 203 to 260): skip non-navigable cells, build the candidate, reject it
if dominated, otherwise remove the labels it dominates, store it and push
it. -/
def relax (cfg : Cfg R C) (current_label : Lab R C) (current_node : Fin R × Fin C)
    (s : RState R C) (nb : Fin R × Fin C) : RState R C :=
  let cell := cfg.grid nb
  if cell.is_clickable = false then s
  else
    let c := new_label cfg current_label current_node nb
    let nb_labels := s.LABELS nb
    if nb_labels.any (fun existing => decide (dominates existing c)) then s
    else
      { LABELS := fun v =>
          if v = nb then (nb_labels.filter (fun lbl => !(decide (dominates c lbl)))) ++ [c]
          else s.LABELS v,
        OPEN := s.OPEN ++ [(c, nb)] }

/-- Relax every neighbor in order. -/
def expand (cfg : Cfg R C) (current_label : Lab R C) (current_node : Fin R × Fin C) :
    RState R C → List (Fin R × Fin C) → RState R C
  | s, [] => s
  | s, v :: rest => expand cfg current_label current_node
      (relax cfg current_label current_node s v) rest

/-- Processing of one popped entry (src/routing.py lines 190 to 260): the
goal-domination pruning, the goal check (a goal label is kept but never
expanded), then neighbor relaxation. -/
def process (cfg : Cfg R C) (s : RState R C) (current_label : Lab R C)
    (current_node : Fin R × Fin C) : RState R C :=
  let goal_labels := s.LABELS cfg.goal
  if goal_labels.any (fun gl => decide (dominates gl current_label)) then s
  else if current_node = cfg.goal then s
  else expand cfg current_label current_node s (neighbors R C current_node)

/-- The start label (src/routing.py lines 170 to 175). -/
def start_label (R C : ℕ) : Lab R C := Lab.mk 0 0 0 none

/-- The initial state (src/routing.py lines 161 to 187). -/
def initState (cfg : Cfg R C) : RState R C :=
  { LABELS := fun v => if v = cfg.start then [start_label R C] else [],
    OPEN := [(start_label R C, cfg.start)] }

/-- One iteration of the main loop: pop some pending entry and process it.
The popped position is arbitrary, which covers the heap order of the
source. -/
def StepRel (cfg : Cfg R C) (s t : RState R C) : Prop :=
  ∃ l₁ l₂ L u, s.OPEN = l₁ ++ (L, u) :: l₂ ∧
    t = process cfg { s with OPEN := l₁ ++ l₂ } L u

/-- All states a run of pareto_optimal_path can reach. -/
def Reachable (cfg : Cfg R C) (s : RState R C) : Prop :=
  Relation.ReflTransGen (StepRel cfg) (initState cfg) s

/-- A deterministic executable instance of the loop that always pops the
head of the pending list; used to run the model on concrete inputs. -/
def stepHead (cfg : Cfg R C) (s : RState R C) : Option (RState R C) :=
  match s.OPEN with
  | [] => none
  | (L, u) :: rest => some (process cfg { s with OPEN := rest } L u)

def runHead (cfg : Cfg R C) : ℕ → RState R C → RState R C
  | 0, s => s
  | n + 1, s =>
    match stepHead cfg s with
    | none => s
    | some t => runHead cfg n t

/-- Navigability of a cell (the is_clickable flag tested at src/routing.py
line 208). -/
def navigable (cfg : Cfg R C) (v : Fin R × Fin C) : Prop :=
  (cfg.grid v).is_clickable = true

instance (cfg : Cfg R C) (v : Fin R × Fin C) : Decidable (navigable cfg v) := by
  unfold navigable; infer_instance

/-- The paths the router explores: they begin at the start cell (whose own
navigability is never tested) and every subsequent cell is an 8-connected
in-bounds navigable neighbor of the previous one.  The list records the
visited cells in order. -/
inductive RouteTo (cfg : Cfg R C) : (Fin R × Fin C) → List (Fin R × Fin C) → Prop where
  | start : RouteTo cfg cfg.start [cfg.start]
  | step {u v : Fin R × Fin C} {l : List (Fin R × Fin C)} :
      RouteTo cfg u l → v ∈ neighbors R C u → navigable cfg v →
      RouteTo cfg v (l ++ [v])

/-- Validity of a label at a node: its predecessor chain is a route the
router can build, with exactly the cost increments of the source. -/
inductive LabValid (cfg : Cfg R C) : Lab R C → (Fin R × Fin C) → Prop where
  | start : LabValid cfg (start_label R C) cfg.start
  | step {L : Lab R C} {u v : Fin R × Fin C} :
      LabValid cfg L u → v ∈ neighbors R C u → navigable cfg v →
      LabValid cfg (new_label cfg L u v) v

/-- Componentwise comparison of the cost vectors of two labels. -/
def labLE {R C : ℕ} (x y : Lab R C) : Prop :=
  Q2.le x.risk y.risk ∧ Q2.le x.time y.time ∧ Q2.le x.fuel y.fuel

/-- Path reconstruction (function reconstruct_path of src/routing.py):
collect the predecessor nodes from the chain, then reverse. -/
def reconstruct_collect : Lab R C → List (Fin R × Fin C)
  | .mk _ _ _ none => []
  | .mk _ _ _ (some (node, prev)) => node :: reconstruct_collect prev

def reconstruct_path (label : Lab R C) : List (Fin R × Fin C) :=
  (reconstruct_collect label).reverse

/-- The run invariant of pareto_optimal_path.  sound_labels and sound_open:
every stored label and every pending entry is a valid label of its node
(its predecessor chain is a route of the code with the exact cost sums).
anti: every per-node label list is a dominance antichain.  start_low: the
start node always keeps a label at or below the zero start label.  covered:
every stored label is pending, or sits at the goal, or is bounded below by
a goal label, or has already propagated a bound to every navigable
neighbor. -/
structure RunInv (cfg : Cfg R C) (s : RState R C) : Prop where
  sound_labels : ∀ v, ∀ m ∈ s.LABELS v, LabValid cfg m v
  sound_open : ∀ p ∈ s.OPEN, LabValid cfg p.1 p.2
  anti : ∀ v, List.Pairwise (fun a b => ¬ dominates a b ∧ ¬ dominates b a) (s.LABELS v)
  start_low : ∃ m ∈ s.LABELS cfg.start, labLE m (start_label R C)
  covered : ∀ v, ∀ m ∈ s.LABELS v,
      ((m, v) ∈ s.OPEN) ∨ (v = cfg.goal) ∨
      (∃ g ∈ s.LABELS cfg.goal, labLE g m) ∨
      (∀ w ∈ neighbors R C v, navigable cfg w →
        ∃ m2 ∈ s.LABELS w, labLE m2 (new_label cfg m v w))

/-- Routes whose expansion never leaves the goal: every step starts from a
node other than the goal.  The search only expands such routes, because a
popped goal label is kept but never expanded. -/
inductive AvoidRoute (cfg : Cfg R C) : (Fin R × Fin C) → Prop where
  | start : AvoidRoute cfg cfg.start
  | step {u v : Fin R × Fin C} :
      AvoidRoute cfg u → u ≠ cfg.goal → v ∈ neighbors R C u → navigable cfg v →
      AvoidRoute cfg v

/-- The default blend coefficient alpha = 0.5 of pareto_optimal_path. -/
def alpha_default : Fr := ⟨1, 2, by omega⟩

/-- The default blend coefficient gamma = 0.3 of pareto_optimal_path. -/
def gamma_default : Fr := ⟨3, 10, by omega⟩

/-- A uniform navigable cell with risk 0, time 1, fuel 1, weather 0; it
satisfies every data-model range. -/
def calmCell : GridCell := ⟨Fr.ofInt 0, Fr.ofInt 1, Fr.ofInt 1, Fr.ofInt 0, true⟩

/-- A vessel profile with a negative base fuel rate; the data model allows
it and pareto_optimal_path never clamps base_fuel_rate. -/
def shipNegFuel : Ship := ⟨Fr.ofInt 1, Fr.ofInt (-1), Fr.ofInt 1⟩

/-- A 1 by 3 all-navigable grid of calm cells, start in the left cell, goal
in the right cell, vessel with base fuel rate -1, default coefficients. -/
def cfg13 : Cfg 1 3 :=
  { grid := fun _ => calmCell, ship := shipNegFuel,
    alpha := alpha_default, gamma := gamma_default,
    start := ((0 : Fin 1), (0 : Fin 3)), goal := ((0 : Fin 1), (2 : Fin 3)) }

/-- On cfg13 every label the search builds has risk 0 and time plus fuel 0:
each step adds time d and fuel -d. -/
def balanced13 (m : Lab 1 3) : Prop :=
  m.risk.toReal = 0 ∧ m.time.toReal + m.fuel.toReal = 0

/-- The nontermination invariant on cfg13: all stored labels and pending
entries are balanced, and some pending entry sits at a node other than the
goal. -/
structure NInv (s : RState 1 3) : Prop where
  bal_labels : ∀ v, ∀ m ∈ s.LABELS v, balanced13 m
  bal_open : ∀ p ∈ s.OPEN, balanced13 p.1
  nongoal : ∃ p ∈ s.OPEN, p.2 ≠ cfg13.goal

/-- Semantic cost-vector equality of two labels. -/
def sameCost {R C : ℕ} (x y : Lab R C) : Prop :=
  Q2.le x.risk y.risk ∧ Q2.le y.risk x.risk ∧ Q2.le x.time y.time ∧
    Q2.le y.time x.time ∧ Q2.le x.fuel y.fuel ∧ Q2.le y.fuel x.fuel

instance {R C : ℕ} (x y : Lab R C) : Decidable (sameCost x y) := by
  unfold sameCost; infer_instance

/-- A 1 by 2 grid whose start cell is not navigable while the goal cell is:
the router never tests the navigability of the cell it starts from. -/
def cfg10 : Cfg 1 2 :=
  { grid := fun v => if v.2 = (0 : Fin 2) then ⟨1, 1, 1, 0, false⟩ else ⟨1, 1, 1, 0, true⟩,
    ship := ⟨Fr.ofInt 1, Fr.ofInt 1, Fr.ofInt 1⟩,
    alpha := alpha_default, gamma := gamma_default,
    start := ((0 : Fin 1), (0 : Fin 2)), goal := ((0 : Fin 1), (1 : Fin 2)) }

/-- A 1 by 2 grid whose goal cell is not navigable: the goal is unreachable. -/
def cfgBlocked : Cfg 1 2 :=
  { grid := fun v => if v.2 = (0 : Fin 2) then ⟨1, 1, 1, 0, true⟩ else ⟨1, 1, 1, 0, false⟩,
    ship := ⟨Fr.ofInt 1, Fr.ofInt 1, Fr.ofInt 1⟩,
    alpha := alpha_default, gamma := gamma_default,
    start := ((0 : Fin 1), (0 : Fin 2)), goal := ((0 : Fin 1), (1 : Fin 2)) }

/-- A 2 by 3 all-navigable grid with risk 1 and zero time and fuel weights:
the two 2-step routes to the goal carry identical cost vectors, and both of
their labels are retained in the goal frontier. -/
def cfgDup : Cfg 2 3 :=
  { grid := fun _ => ⟨Fr.ofInt 1, Fr.ofInt 0, Fr.ofInt 0, Fr.ofInt 0, true⟩,
    ship := ⟨Fr.ofInt 1, Fr.ofInt 1, Fr.ofInt 1⟩,
    alpha := alpha_default, gamma := gamma_default,
    start := ((0 : Fin 2), (0 : Fin 3)), goal := ((0 : Fin 2), (2 : Fin 3)) }

/-- A 2 by 2 all-navigable uniform grid used to exhibit the diagonal step
distance. -/
def cfgDiag : Cfg 2 2 :=
  { grid := fun _ => ⟨Fr.ofInt 0, Fr.ofInt 1, Fr.ofInt 1, Fr.ofInt 0, true⟩,
    ship := ⟨Fr.ofInt 1, Fr.ofInt 1, Fr.ofInt 1⟩,
    alpha := alpha_default, gamma := gamma_default,
    start := ((0 : Fin 2), (0 : Fin 2)), goal := ((1 : Fin 2), (1 : Fin 2)) }

/-- A single non-navigable cell, start equal to goal. -/
def cfgSelf : Cfg 1 1 :=
  { grid := fun _ => ⟨1, 1, 1, 0, false⟩,
    ship := ⟨Fr.ofInt 1, Fr.ofInt 1, Fr.ofInt 1⟩,
    alpha := alpha_default, gamma := gamma_default,
    start := ((0 : Fin 1), (0 : Fin 1)), goal := ((0 : Fin 1), (0 : Fin 1)) }

/-- A single navigable cell, start equal to goal. -/
def cfgSelfNav : Cfg 1 1 :=
  { grid := fun _ => ⟨1, 1, 1, 0, true⟩,
    ship := ⟨Fr.ofInt 1, Fr.ofInt 1, Fr.ofInt 1⟩,
    alpha := alpha_default, gamma := gamma_default,
    start := ((0 : Fin 1), (0 : Fin 1)), goal := ((0 : Fin 1), (0 : Fin 1)) }

/-- The edge distance asserted by claim C3: 1 for a cardinal step and
1 over the square root of 2 (that is, sqrt 2 divided by 2) for a diagonal
step.  This definition follows the claim wording, to be compared with the
distance the source computes. -/
def edge_distance_claimed (R C : ℕ) (a b : Fin R × Fin C) : Q2 :=
  if a.1 = b.1 ∨ a.2 = b.2 then Q2.ofFr 1 else ⟨0, ⟨1, 2, by omega⟩⟩

/-- The time increment asserted by claim C3, using its claimed edge
distance. -/
def time_increment_claimed (cfg : Cfg R C) (current_node nb : Fin R × Fin C) : Q2 :=
  Q2.smul ((cfg.grid nb).time.mul (inv_speed cfg.ship))
    (edge_distance_claimed R C current_node nb)

/-- The fuel increment asserted by claim C4, with base_fuel_rate clamped to
at least 0.1 as the claim requires.  This definition follows the claim
wording, to be compared with fuel_increment, which the source computes from
the unclamped base_fuel_rate. -/
def fuel_increment_clamped (cfg : Cfg R C) (current_node nb : Fin R × Fin C) : Q2 :=
  let cell := cfg.grid nb
  Q2.smul (((Fr.fmax tenth cfg.ship.base_fuel_rate).mul cell.fuel).mul
    ((1 : Fr).add ((cfg.gamma.mul cell.weather).mul (inv_durability cfg.ship))))
    (distance R C current_node nb)

/-- The four cardinal offsets of the reachability check of init_grid_cells
(src/main.py line 218). -/
def directions4 : List (ℤ × ℤ) := [(-1, 0), (1, 0), (0, -1), (0, 1)]

/-- The in-bounds 4-connected neighbors of a node (src/main.py lines 218
to 220). -/
def neighbors4 (R C : ℕ) (node : Fin R × Fin C) : List (Fin R × Fin C) :=
  directions4.filterMap (fun d =>
    let nr : ℤ := (node.1 : ℤ) + d.1
    let nc : ℤ := (node.2 : ℤ) + d.2
    if h : 0 ≤ nr ∧ nr < R ∧ 0 ≤ nc ∧ nc < C then
      some (⟨nr.toNat, by omega⟩, ⟨nc.toNat, by omega⟩)
    else none)

/-- Row-major scan order of the grid (src/main.py lines 198 to 204). -/
def rowMajorNodes (R C : ℕ) : List (Fin R × Fin C) :=
  (List.finRange R).bind (fun r => (List.finRange C).map (fun c => (r, c)))

/-- The anchor: the first navigable cell in row-major scan order
(src/main.py lines 196 to 204). -/
def findAnchor (R C : ℕ) (g : Fin R × Fin C → GridCell) : Option (Fin R × Fin C) :=
  (rowMajorNodes R C).find? (fun v => (g v).is_clickable)

/-- The breadth-first reachability loop of init_grid_cells (src/main.py
lines 210 to 223): pop the queue head, append the navigable unvisited
4-neighbors to both the visited list and the queue.  The Python loop has no
fuel; the fuel is a bound on the number of iterations, and with the fuel
the filter passes (more than 5 times the cell count) the loop always
drains its queue, as the closure theorems below show. -/
def bfs_news (R C : ℕ) (g : Fin R × Fin C → GridCell) (v : Fin R × Fin C)
    (reach : List (Fin R × Fin C)) : List (Fin R × Fin C) :=
  (neighbors4 R C v).filter (fun w => (g w).is_clickable && !(reach.contains w))

def bfs_reach (R C : ℕ) (g : Fin R × Fin C → GridCell) :
    ℕ → List (Fin R × Fin C) → List (Fin R × Fin C) → List (Fin R × Fin C)
  | 0, _, reach => reach
  | _ + 1, [], reach => reach
  | fuel + 1, v :: rest, reach =>
    bfs_reach R C g fuel (rest ++ bfs_news R C g v reach) (reach ++ bfs_news R C g v reach)

/-- The connectivity filter of init_grid_cells (src/main.py lines 196 to
232), applied to an already classified grid: locate the anchor, run the
reachability check from it, and clear the navigability flag of every
unreached cell.  Without an anchor the grid is returned unchanged. -/
def init_grid_cells_filter (R C : ℕ) (g : Fin R × Fin C → GridCell) :
    Fin R × Fin C → GridCell :=
  match findAnchor R C g with
  | none => g
  | some anchor =>
    let reach := bfs_reach R C g (5 * (R * C + 1)) [anchor] [anchor]
    fun v => if v ∈ reach then g v else { g v with is_clickable := false }

/-- One 4-connected step over navigable cells of the grid g. -/
def stepRel4 (R C : ℕ) (g : Fin R × Fin C → GridCell) (a b : Fin R × Fin C) : Prop :=
  b ∈ neighbors4 R C a ∧ (g b).is_clickable = true

/-- 4-connected reachability over navigable cells of the grid g. -/
def ReachRel4 (R C : ℕ) (g : Fin R × Fin C → GridCell) (a b : Fin R × Fin C) : Prop :=
  Relation.ReflTransGen (stepRel4 R C g) a b

/-- A 4-connected step both of whose endpoints are navigable in g: the
connectivity relation inside the navigable region. -/
def stepWithin (R C : ℕ) (g : Fin R × Fin C → GridCell) (a b : Fin R × Fin C) : Prop :=
  b ∈ neighbors4 R C a ∧ (g a).is_clickable = true ∧ (g b).is_clickable = true

def ConnWithin (R C : ℕ) (g : Fin R × Fin C → GridCell) (a b : Fin R × Fin C) : Prop :=
  Relation.ReflTransGen (stepWithin R C g) a b

/-- The visited list of the filter run: fuel, queue and visited list as
init_grid_cells uses them. -/
def filterReach (R C : ℕ) (g : Fin R × Fin C → GridCell) (anchor : Fin R × Fin C) :
    List (Fin R × Fin C) :=
  bfs_reach R C g (5 * (R * C + 1)) [anchor] [anchor]

/-- A 1 by 3 grid whose middle cell is not navigable: the right navigable
cell is an isolated pocket the filter must clear. -/
def gPocket : Fin 1 × Fin 3 → GridCell := fun v =>
  if v.2 = (1 : Fin 3) then ⟨1, 1, 1, 0, false⟩ else ⟨1, 1, 1, 0, true⟩

/-- Python round: nearest integer, ties to the even integer. -/
def pyRound (x : ℚ) : ℤ :=
  let f := ⌊x⌋
  let frac := x - f
  if frac < 1 / 2 then f
  else if 1 / 2 < frac then f + 1
  else if Even f then f else f + 1

/-- Line of sight test (function line_of_sight of src/routing.py): sample
the segment at int(dist * 2) + 1 intervals; every sample must round to an
in-bounds navigable cell.  The sample count int(dist * 2) is the floor of
2 times the square root of the squared separation s, which equals
Nat.sqrt (4 * s) exactly. -/
def line_of_sight (R C : ℕ) (g : Fin R × Fin C → GridCell)
    (start finish : ℤ × ℤ) : Bool :=
  let s : ℤ := (start.1 - finish.1) ^ 2 + (start.2 - finish.2) ^ 2
  if s = 0 then true
  else
    let num_samples := Nat.sqrt (4 * s.toNat) + 1
    (List.range (num_samples + 1)).all fun i =>
      let t : ℚ := (i : ℚ) / (num_samples : ℚ)
      let curr_r : ℚ := (start.1 : ℚ) + ((finish.1 - start.1 : ℤ) : ℚ) * t
      let curr_c : ℚ := (start.2 : ℚ) + ((finish.2 - start.2 : ℤ) : ℚ) * t
      let check_r := pyRound curr_r
      let check_c := pyRound curr_c
      if h : 0 ≤ check_r ∧ check_r < R ∧ 0 ≤ check_c ∧ check_c < C then
        (g (⟨check_r.toNat, by omega⟩, ⟨check_c.toNat, by omega⟩)).is_clickable
      else false

/-- The scan of the string-pulling loop (src/routing.py line 125): the
descending indices len - 1, len - 2, ..., cur + 2. -/
def scan_range (len cur : ℕ) : List ℕ :=
  (List.range (len - 1 - (cur + 1))).map (fun k => len - 1 - k)

/-- The furthest visible index from the waypoint at index cur
(src/routing.py lines 124 to 128): the first scanned index with line of
sight, and cur + 1 when none has it. -/
def furthest_visible (R C : ℕ) (g : Fin R × Fin C → GridCell)
    (path : List (ℤ × ℤ)) (cur : ℕ) : ℕ :=
  match (scan_range path.length cur).find?
      (fun j => line_of_sight R C g (path.getD cur (0, 0)) (path.getD j (0, 0))) with
  | some j => j
  | none => cur + 1

/-- The accumulation loop of prune_path (src/routing.py lines 122 to 131):
append the furthest visible waypoint and advance the index to it; the index
strictly increases, which bounds the iteration count. -/
def prune_go (R C : ℕ) (g : Fin R × Fin C → GridCell) (path : List (ℤ × ℤ))
    (cur : ℕ) (acc : List (ℤ × ℤ)) : List (ℤ × ℤ) :=
  if h : cur < path.length - 1 then
    prune_go R C g path (furthest_visible R C g path cur)
      (acc ++ [path.getD (furthest_visible R C g path cur) (0, 0)])
  else acc
termination_by path.length - cur
decreasing_by
  have h2 : cur < furthest_visible R C g path cur := by
    unfold furthest_visible
    cases hfind : (scan_range path.length cur).find?
        (fun j => line_of_sight R C g (path.getD cur (0, 0)) (path.getD j (0, 0))) with
    | none =>
      show cur < cur + 1
      omega
    | some j =>
      show cur < j
      have hj := List.mem_of_find?_eq_some hfind
      simp only [scan_range, List.mem_map, List.mem_range] at hj
      obtain ⟨k, hk, rfl⟩ := hj
      omega
  omega

/-- String pulling (function prune_path of src/routing.py): paths of fewer
than 3 waypoints are returned unchanged; otherwise start from the first
waypoint and repeatedly jump to the furthest waypoint in line of sight. -/
def prune_path (R C : ℕ) (g : Fin R × Fin C → GridCell)
    (path : List (ℤ × ℤ)) : List (ℤ × ℤ) :=
  if path.length < 3 then path
  else prune_go R C g path 0 [path.getD 0 (0, 0)]

theorem Fr.den_real_pos (a : Fr) : (0 : ℝ) < (a.den : ℝ) := by
  exact_mod_cast a.den_pos

theorem Fr.toReal_ofInt (n : ℤ) : (ofInt n).toReal = (n : ℝ) := by
  simp [ofInt, toReal]

theorem Fr.toReal_zero : (0 : Fr).toReal = 0 := by
  show (ofInt 0).toReal = 0
  simp [toReal_ofInt]

theorem Fr.toReal_one : (1 : Fr).toReal = 1 := by
  show (ofInt 1).toReal = 1
  simp [toReal_ofInt]

theorem Fr.toReal_add (a b : Fr) : (add a b).toReal = a.toReal + b.toReal := by
  unfold add toReal
  have ha := a.den_real_pos
  have hb := b.den_real_pos
  push_cast
  field_simp

theorem Fr.toReal_neg (a : Fr) : (neg a).toReal = -a.toReal := by
  unfold neg toReal
  push_cast
  ring

theorem Fr.toReal_sub (a b : Fr) : (sub a b).toReal = a.toReal - b.toReal := by
  unfold sub
  rw [toReal_add, toReal_neg]
  ring

theorem Fr.toReal_mul (a b : Fr) : (mul a b).toReal = a.toReal * b.toReal := by
  unfold mul toReal
  have ha := a.den_real_pos
  have hb := b.den_real_pos
  push_cast
  field_simp

theorem Fr.le_iff (a b : Fr) : le a b ↔ a.toReal ≤ b.toReal := by
  unfold le toReal
  rw [div_le_div_iff a.den_real_pos b.den_real_pos]
  constructor <;> intro h <;> exact_mod_cast h

theorem Fr.lt_iff (a b : Fr) : lt a b ↔ a.toReal < b.toReal := by
  unfold lt toReal
  rw [div_lt_div_iff a.den_real_pos b.den_real_pos]
  constructor <;> intro h <;> exact_mod_cast h

theorem Fr.toReal_fmax (a b : Fr) : (fmax a b).toReal = max a.toReal b.toReal := by
  unfold fmax
  by_cases h : le a b
  · rw [if_pos h, max_eq_right ((le_iff a b).mp h)]
  · rw [if_neg h, max_eq_left]
    have := (le_iff a b).not.mp h
    linarith [not_le.mp this]

theorem Fr.toReal_inv (a : Fr) : (inv a).toReal = a.toReal⁻¹ := by
  unfold inv
  by_cases h : 0 < a.num
  · rw [dif_pos h]
    unfold toReal
    have hn0 : (a.num.toNat : ℤ) = a.num := Int.toNat_of_nonneg h.le
    have hn : ((a.num.toNat : ℤ) : ℝ) = (a.num : ℝ) := by exact_mod_cast hn0
    push_cast
    rw [show ((a.num.toNat : ℕ) : ℝ) = (a.num : ℝ) by exact_mod_cast hn]
    rw [inv_div]
  · rw [dif_neg h]
    by_cases h2 : a.num < 0
    · rw [dif_pos h2]
      unfold toReal
      have hn0 : ((-a.num).toNat : ℤ) = -a.num := Int.toNat_of_nonneg (by omega)
      have hn : (((-a.num).toNat : ℤ) : ℝ) = ((-a.num : ℤ) : ℝ) := by exact_mod_cast hn0
      push_cast
      rw [show (((-a.num).toNat : ℕ) : ℝ) = -(a.num : ℝ) by push_cast at hn ⊢; linarith]
      rw [inv_div]
      rw [div_neg, neg_div, neg_neg]
    · rw [dif_neg h2]
      have hz : a.num = 0 := by omega
      unfold toReal ofInt
      rw [hz]
      simp

/-- The key sign analysis over the reals: the sign of `x + y * sqrt 2` is
decided by the signs of `x` and `y` and a comparison of `x ^ 2` with
`2 * y ^ 2`. -/
theorem real_sqrt2_nonneg_iff (x y : ℝ) :
    ((0 ≤ x ∧ 0 ≤ y) ∨ (x < 0 ∧ 0 ≤ y ∧ x ^ 2 ≤ 2 * y ^ 2) ∨
      (0 ≤ x ∧ y < 0 ∧ 2 * y ^ 2 ≤ x ^ 2)) ↔ 0 ≤ x + y * Real.sqrt 2 := by
  have hs0 : (0:ℝ) ≤ Real.sqrt 2 := Real.sqrt_nonneg 2
  have hs2 : Real.sqrt 2 ^ 2 = 2 := Real.sq_sqrt (by norm_num)
  have hsq : ∀ z : ℝ, (z * Real.sqrt 2) ^ 2 = 2 * z ^ 2 := by
    intro z; rw [mul_pow, hs2]; ring
  constructor
  · rintro (⟨hx, hy⟩ | ⟨hx, hy, h⟩ | ⟨hx, hy, h⟩)
    · positivity
    · by_contra hc
      push_neg at hc
      have h2 : y * Real.sqrt 2 < -x := by linarith
      have h3 : (y * Real.sqrt 2) ^ 2 < (-x) ^ 2 :=
        pow_lt_pow_left₀ h2 (by positivity) (by norm_num)
      rw [hsq] at h3
      nlinarith
    · have h2 : (-y) * Real.sqrt 2 ≤ x := by
        by_contra hc
        push_neg at hc
        have h3 : x ^ 2 < ((-y) * Real.sqrt 2) ^ 2 :=
          pow_lt_pow_left₀ hc hx (by norm_num)
        rw [hsq] at h3
        nlinarith
      nlinarith
  · intro h
    rcases lt_or_le x 0 with hx | hx
    · have hy : 0 ≤ y := by
        rcases lt_or_le y 0 with hy | hy
        · nlinarith
        · exact hy
      refine Or.inr (Or.inl ⟨hx, hy, ?_⟩)
      have h2 : -x ≤ y * Real.sqrt 2 := by linarith
      have h3 : (-x) ^ 2 ≤ (y * Real.sqrt 2) ^ 2 := pow_le_pow_left₀ (by linarith) h2 2
      rw [hsq] at h3
      nlinarith
    · rcases lt_or_le y 0 with hy | hy
      · refine Or.inr (Or.inr ⟨hx, hy, ?_⟩)
        have h2 : (-y) * Real.sqrt 2 ≤ x := by linarith
        have h3 : ((-y) * Real.sqrt 2) ^ 2 ≤ x ^ 2 :=
          pow_le_pow_left₀ (mul_nonneg (by linarith) hs0) h2 2
        rw [hsq] at h3
        nlinarith
      · exact Or.inl ⟨hx, hy⟩

theorem Q2.toReal_ofFr (c : Fr) : (ofFr c).toReal = c.toReal := by
  unfold ofFr toReal
  rw [show (0 : Fr).toReal = 0 from Fr.toReal_zero]
  ring

theorem Q2.toReal_zero_q2 : (0 : Q2).toReal = 0 := by
  show (ofFr (Fr.ofInt 0)).toReal = 0
  rw [toReal_ofFr, Fr.toReal_ofInt]
  norm_num

theorem Q2.toReal_sqrt2 : sqrt2.toReal = Real.sqrt 2 := by
  unfold sqrt2 toReal
  rw [show (0 : Fr).toReal = 0 from Fr.toReal_zero,
    show (1 : Fr).toReal = 1 from Fr.toReal_one]
  ring

theorem Q2.toReal_add_q2 (x y : Q2) : (add x y).toReal = x.toReal + y.toReal := by
  unfold add toReal
  rw [Fr.toReal_add, Fr.toReal_add]
  ring

theorem Q2.toReal_sub_q2 (x y : Q2) : (sub x y).toReal = x.toReal - y.toReal := by
  unfold sub toReal
  rw [Fr.toReal_sub, Fr.toReal_sub]
  ring

theorem Q2.toReal_smul (c : Fr) (x : Q2) : (smul c x).toReal = c.toReal * x.toReal := by
  unfold smul toReal
  rw [Fr.toReal_mul, Fr.toReal_mul]
  ring

theorem Q2.nonneg_iff (x : Q2) : nonneg x ↔ 0 ≤ x.toReal := by
  unfold nonneg toReal
  rw [← real_sqrt2_nonneg_iff]
  have hz : (0 : Fr).toReal = 0 := Fr.toReal_zero
  have htwo : (Fr.ofInt 2).toReal = (2 : ℝ) := by rw [Fr.toReal_ofInt]; norm_num
  simp only [Fr.le_iff, Fr.lt_iff, Fr.toReal_mul, htwo, hz]
  constructor <;>
    · rintro (⟨h1, h2⟩ | ⟨h1, h2, h3⟩ | ⟨h1, h2, h3⟩)
      · exact Or.inl ⟨h1, h2⟩
      · refine Or.inr (Or.inl ⟨h1, h2, by nlinarith⟩)
      · refine Or.inr (Or.inr ⟨h1, h2, by nlinarith⟩)

theorem Q2.le_iff_q2 (x y : Q2) : le x y ↔ x.toReal ≤ y.toReal := by
  unfold le
  rw [nonneg_iff, toReal_sub_q2]
  constructor <;> intro h <;> linarith

theorem Q2.lt_iff_q2 (x y : Q2) : lt x y ↔ x.toReal < y.toReal := by
  unfold lt
  rw [le_iff_q2]
  exact not_le

theorem Q2.le_refl (x : Q2) : le x x := by rw [le_iff_q2]

theorem Q2.le_trans {x y z : Q2} (h1 : le x y) (h2 : le y z) : le x z := by
  rw [le_iff_q2] at h1 h2 ⊢
  linarith

theorem Q2.le_of_lt {x y : Q2} (h : lt x y) : le x y := by
  rw [lt_iff_q2] at h
  rw [le_iff_q2]
  linarith

theorem Q2.not_lt_self (x : Q2) : ¬ lt x x := by
  rw [lt_iff_q2]
  exact irrefl x.toReal

theorem Q2.add_le_add {x y z w : Q2} (h1 : le x y) (h2 : le z w) :
    le (add x z) (add y w) := by
  rw [le_iff_q2] at h1 h2 ⊢
  rw [toReal_add_q2, toReal_add_q2]
  linarith

theorem Q2.le_add_of_nonneg_right {x y : Q2} (h : le 0 y) : le x (add x y) := by
  rw [le_iff_q2] at h ⊢
  rw [toReal_add_q2]
  rw [toReal_zero_q2] at h
  linarith

theorem Q2.lt_add_of_pos_right {x y : Q2} (h : lt 0 y) : lt x (add x y) := by
  rw [lt_iff_q2] at h ⊢
  rw [toReal_add_q2]
  rw [toReal_zero_q2] at h
  linarith

theorem Q2.add_lt_add_of_le_of_lt {x y z w : Q2} (h1 : le x y) (h2 : lt z w) :
    lt (add x z) (add y w) := by
  rw [le_iff_q2] at h1
  rw [lt_iff_q2] at h2 ⊢
  rw [toReal_add_q2, toReal_add_q2]
  linarith

theorem stepHead_isStep (cfg : Cfg R C) (s t : RState R C)
    (h : stepHead cfg s = some t) : StepRel cfg s t := by
  unfold stepHead at h
  cases hO : s.OPEN with
  | nil => rw [hO] at h; exact absurd h (by simp)
  | cons e rest =>
    rw [hO] at h
    refine ⟨[], rest, e.1, e.2, by rw [hO]; simp, ?_⟩
    simp only [Option.some.injEq] at h
    rw [← h]
    simp

theorem runHead_reachable (cfg : Cfg R C) (n : ℕ) :
    Reachable cfg (runHead cfg n (initState cfg)) := by
  have key : ∀ m s, Reachable cfg s → Reachable cfg (runHead cfg m s) := by
    intro m
    induction m with
    | zero => intro s hs; exact hs
    | succ k ih =>
      intro s hs
      unfold runHead
      cases hstep : stepHead cfg s with
      | none => exact hs
      | some t =>
        exact ih t (Relation.ReflTransGen.tail hs (stepHead_isStep cfg s t hstep))
  exact key n (initState cfg) Relation.ReflTransGen.refl

theorem labValid_route {cfg : Cfg R C} {L : Lab R C} {u : Fin R × Fin C}
    (h : LabValid cfg L u) : ∃ l, RouteTo cfg u l := by
  induction h with
  | start => exact ⟨_, RouteTo.start⟩
  | step _ hnb hnav ih =>
    obtain ⟨l, hl⟩ := ih
    exact ⟨_, RouteTo.step hl hnb hnav⟩

theorem labLE_refl (x : Lab R C) : labLE x x :=
  ⟨Q2.le_refl _, Q2.le_refl _, Q2.le_refl _⟩

theorem labLE_trans {x y z : Lab R C} (h1 : labLE x y) (h2 : labLE y z) : labLE x z :=
  ⟨Q2.le_trans h1.1 h2.1, Q2.le_trans h1.2.1 h2.2.1, Q2.le_trans h1.2.2 h2.2.2⟩

theorem dominates_labLE {x y : Lab R C} (h : dominates x y) : labLE x y :=
  ⟨h.1, h.2.1, h.2.2.1⟩

theorem labLE_new_label (cfg : Cfg R C) {x y : Lab R C} (u v : Fin R × Fin C)
    (h : labLE x y) : labLE (new_label cfg x u v) (new_label cfg y u v) := by
  refine ⟨?_, ?_, ?_⟩ <;> simp only [new_label, Lab.risk, Lab.time, Lab.fuel]
  · exact Q2.add_le_add h.1 (Q2.le_refl _)
  · exact Q2.add_le_add h.2.1 (Q2.le_refl _)
  · exact Q2.add_le_add h.2.2 (Q2.le_refl _)

/-- Dominance through a componentwise bound: anything below a dominating
label also dominates. -/
theorem labLE_dominates {x y z : Lab R C} (h1 : labLE x y) (h2 : dominates y z) :
    dominates x z := by
  obtain ⟨h1r, h1t, h1f⟩ := h1
  obtain ⟨h2r, h2t, h2f, hstrict⟩ := h2
  refine ⟨Q2.le_trans h1r h2r, Q2.le_trans h1t h2t, Q2.le_trans h1f h2f, ?_⟩
  rcases hstrict with h | h | h
  · exact Or.inl (by rw [Q2.lt_iff_q2] at h ⊢; rw [Q2.le_iff_q2] at h1r; linarith)
  · exact Or.inr (Or.inl (by rw [Q2.lt_iff_q2] at h ⊢; rw [Q2.le_iff_q2] at h1t; linarith))
  · exact Or.inr (Or.inr (by rw [Q2.lt_iff_q2] at h ⊢; rw [Q2.le_iff_q2] at h1f; linarith))

theorem dominates_irrefl (x : Lab R C) : ¬ dominates x x := by
  rintro ⟨-, -, -, h | h | h⟩ <;> exact Q2.not_lt_self _ h

theorem reconstruct_path_new_label (cfg : Cfg R C) (L : Lab R C)
    (u v : Fin R × Fin C) :
    reconstruct_path (new_label cfg L u v) = reconstruct_path L ++ [u] := by
  show (reconstruct_collect (new_label cfg L u v)).reverse = _
  have hc : reconstruct_collect (new_label cfg L u v) = u :: reconstruct_collect L := rfl
  rw [hc, List.reverse_cons]
  rfl

/-- The chain walk of a valid label, completed with the node the label sits
at (src/main.py line 285 appends the goal node), starts at the start node
and ends at that node. -/
theorem reconstruct_endpoints {cfg : Cfg R C} {L : Lab R C} {u : Fin R × Fin C}
    (h : LabValid cfg L u) :
    (reconstruct_path L ++ [u]).head? = some cfg.start ∧
      (reconstruct_path L ++ [u]).getLast? = some u := by
  have hlast : ∀ (xs : List (Fin R × Fin C)) (w : Fin R × Fin C),
      (xs ++ [w]).getLast? = some w := by
    intro xs w
    rw [List.getLast?_concat]
  refine ⟨?_, hlast _ _⟩
  induction h with
  | start =>
    simp [reconstruct_path, start_label, reconstruct_collect]
  | @step L u v hLV hnb hnav ih =>
    rw [reconstruct_path_new_label]
    have : reconstruct_path L ++ [u] ≠ [] := by simp
    cases hcons : reconstruct_path L ++ [u] with
    | nil => exact absurd hcons this
    | cons x xs =>
      rw [hcons] at ih
      simp only [List.head?_cons] at ih
      simp [hcons, ih]

theorem any_dominates_iff {R C : ℕ} (l : List (Lab R C)) (c : Lab R C) :
    (l.any fun e => decide (dominates e c)) = true ↔ ∃ e ∈ l, dominates e c := by
  simp [List.any_eq_true]

theorem mem_filter_not_dominated {R C : ℕ} (l : List (Lab R C)) (c m : Lab R C) :
    m ∈ l.filter (fun lbl => !(decide (dominates c lbl))) ↔ m ∈ l ∧ ¬ dominates c m := by
  simp [List.mem_filter]

/-- Exact characterization of one relaxation: either it leaves the state
unchanged (non-navigable neighbor, or candidate dominated), or it inserts
the candidate, removes the labels the candidate dominates and pushes the
candidate. -/
theorem relax_char (cfg : Cfg R C) (L : Lab R C) (u : Fin R × Fin C)
    (s : RState R C) (nb : Fin R × Fin C) :
    (relax cfg L u s nb = s ∧
      (¬ navigable cfg nb ∨ ∃ e ∈ s.LABELS nb, dominates e (new_label cfg L u nb))) ∨
    (navigable cfg nb ∧ (∀ e ∈ s.LABELS nb, ¬ dominates e (new_label cfg L u nb)) ∧
      relax cfg L u s nb =
        { LABELS := fun v =>
            if v = nb then
              ((s.LABELS nb).filter
                (fun lbl => !(decide (dominates (new_label cfg L u nb) lbl)))) ++
                [new_label cfg L u nb]
            else s.LABELS v,
          OPEN := s.OPEN ++ [(new_label cfg L u nb, nb)] }) := by
  unfold relax
  by_cases hnav : (cfg.grid nb).is_clickable = false
  · rw [if_pos hnav]
    exact Or.inl ⟨rfl, Or.inl (by unfold navigable; simp [hnav])⟩
  · rw [if_neg hnav]
    by_cases hdom : ((s.LABELS nb).any fun e => decide (dominates e (new_label cfg L u nb))) = true
    · rw [if_pos hdom]
      exact Or.inl ⟨rfl, Or.inr ((any_dominates_iff _ _).mp hdom)⟩
    · rw [if_neg hdom]
      refine Or.inr ⟨by unfold navigable; simpa using hnav, ?_, rfl⟩
      intro e he hd
      exact hdom ((any_dominates_iff _ _).mpr ⟨e, he, hd⟩)

theorem relax_OPEN_mono (cfg : Cfg R C) (L : Lab R C) (u : Fin R × Fin C)
    (s : RState R C) (nb : Fin R × Fin C) (p : Lab R C × (Fin R × Fin C))
    (hp : p ∈ s.OPEN) : p ∈ (relax cfg L u s nb).OPEN := by
  rcases relax_char cfg L u s nb with ⟨heq, -⟩ | ⟨-, -, heq⟩ <;> rw [heq]
  · exact hp
  · exact List.mem_append_left _ hp

theorem relax_covers (cfg : Cfg R C) (L : Lab R C) (u : Fin R × Fin C)
    (s : RState R C) (nb : Fin R × Fin C) (v : Fin R × Fin C) (m : Lab R C)
    (hm : m ∈ s.LABELS v) :
    ∃ m2 ∈ (relax cfg L u s nb).LABELS v, labLE m2 m := by
  rcases relax_char cfg L u s nb with ⟨heq, -⟩ | ⟨-, -, heq⟩ <;> rw [heq]
  · exact ⟨m, hm, labLE_refl m⟩
  · simp only
    by_cases hv : v = nb
    · subst hv
      rw [if_pos rfl]
      by_cases hdom : dominates (new_label cfg L u v) m
      · exact ⟨new_label cfg L u v, List.mem_append_right _ (by simp),
          dominates_labLE hdom⟩
      · exact ⟨m, List.mem_append_left _ ((mem_filter_not_dominated _ _ _).mpr ⟨hm, hdom⟩),
          labLE_refl m⟩
    · rw [if_neg hv]
      exact ⟨m, hm, labLE_refl m⟩

theorem relax_labels_char (cfg : Cfg R C) (L : Lab R C) (u : Fin R × Fin C)
    (s : RState R C) (nb : Fin R × Fin C) (v : Fin R × Fin C) (m : Lab R C)
    (hm : m ∈ (relax cfg L u s nb).LABELS v) :
    m ∈ s.LABELS v ∨ (v = nb ∧ m = new_label cfg L u nb ∧ navigable cfg nb) := by
  rcases relax_char cfg L u s nb with ⟨heq, -⟩ | ⟨hnav, -, heq⟩
  · rw [heq] at hm
    exact Or.inl hm
  · rw [heq] at hm
    simp only at hm
    by_cases hv : v = nb
    · subst hv
      rw [if_pos rfl] at hm
      rcases List.mem_append.mp hm with h | h
      · exact Or.inl ((mem_filter_not_dominated _ _ _).mp h).1
      · simp at h
        exact Or.inr ⟨rfl, h, hnav⟩
    · rw [if_neg hv] at hm
      exact Or.inl hm

theorem relax_OPEN_char (cfg : Cfg R C) (L : Lab R C) (u : Fin R × Fin C)
    (s : RState R C) (nb : Fin R × Fin C) (p : Lab R C × (Fin R × Fin C))
    (hp : p ∈ (relax cfg L u s nb).OPEN) :
    p ∈ s.OPEN ∨ (p = (new_label cfg L u nb, nb) ∧ navigable cfg nb) := by
  rcases relax_char cfg L u s nb with ⟨heq, -⟩ | ⟨hnav, -, heq⟩
  · rw [heq] at hp
    exact Or.inl hp
  · rw [heq] at hp
    rcases List.mem_append.mp hp with h | h
    · exact Or.inl h
    · simp at h
      exact Or.inr ⟨h, hnav⟩

theorem relax_anti (cfg : Cfg R C) (L : Lab R C) (u : Fin R × Fin C)
    (s : RState R C) (nb : Fin R × Fin C)
    (h : ∀ v, List.Pairwise (fun a b => ¬ dominates a b ∧ ¬ dominates b a) (s.LABELS v)) :
    ∀ v, List.Pairwise (fun a b => ¬ dominates a b ∧ ¬ dominates b a)
      ((relax cfg L u s nb).LABELS v) := by
  rcases relax_char cfg L u s nb with ⟨heq, -⟩ | ⟨-, hnd, heq⟩ <;> rw [heq]
  · exact h
  · intro v
    simp only
    by_cases hv : v = nb
    · subst hv
      rw [if_pos rfl]
      rw [List.pairwise_append]
      refine ⟨(h v).sublist (List.filter_sublist _), List.pairwise_singleton _ _, ?_⟩
      intro a ha b hb
      have hb2 : b = new_label cfg L u v := by simpa using hb
      subst hb2
      have ha2 := (mem_filter_not_dominated _ _ _).mp ha
      exact ⟨hnd a ha2.1, ha2.2⟩
    · rw [if_neg hv]
      exact h v

theorem relax_K4 (cfg : Cfg R C) (L : Lab R C) (u : Fin R × Fin C)
    (s : RState R C) (nb : Fin R × Fin C) (hnav : navigable cfg nb) :
    ∃ m2 ∈ (relax cfg L u s nb).LABELS nb, labLE m2 (new_label cfg L u nb) := by
  rcases relax_char cfg L u s nb with ⟨heq, hc⟩ | ⟨-, -, heq⟩ <;> rw [heq]
  · rcases hc with hc | ⟨e, he, hd⟩
    · exact absurd hnav hc
    · exact ⟨e, he, dominates_labLE hd⟩
  · refine ⟨new_label cfg L u nb, ?_, labLE_refl _⟩
    simp

theorem relax_labels_entry (cfg : Cfg R C) (L : Lab R C) (u : Fin R × Fin C)
    (s : RState R C) (nb : Fin R × Fin C) (v : Fin R × Fin C) (m : Lab R C)
    (hm : m ∈ (relax cfg L u s nb).LABELS v) :
    m ∈ s.LABELS v ∨ (m, v) ∈ (relax cfg L u s nb).OPEN := by
  rcases relax_char cfg L u s nb with ⟨heq, -⟩ | ⟨-, -, heq⟩ <;> rw [heq] at hm ⊢
  · exact Or.inl hm
  · simp only at hm
    by_cases hv : v = nb
    · subst hv
      rw [if_pos rfl] at hm
      rcases List.mem_append.mp hm with h | h
      · exact Or.inl ((mem_filter_not_dominated _ _ _).mp h).1
      · have hmeq : m = new_label cfg L u v := by simpa using h
        subst hmeq
        exact Or.inr (List.mem_append_right _ (by simp))
    · rw [if_neg hv] at hm
      exact Or.inl hm

theorem expand_cons (cfg : Cfg R C) (L : Lab R C) (u : Fin R × Fin C)
    (s : RState R C) (w : Fin R × Fin C) (rest : List (Fin R × Fin C)) :
    expand cfg L u s (w :: rest) = expand cfg L u (relax cfg L u s w) rest := rfl

theorem expand_OPEN_mono (cfg : Cfg R C) (L : Lab R C) (u : Fin R × Fin C) :
    ∀ (todo : List (Fin R × Fin C)) (s : RState R C) (p : Lab R C × (Fin R × Fin C)),
      p ∈ s.OPEN → p ∈ (expand cfg L u s todo).OPEN := by
  intro todo
  induction todo with
  | nil => intro s p hp; exact hp
  | cons v rest ih =>
    intro s p hp
    rw [expand_cons]
    exact ih (relax cfg L u s v) p (relax_OPEN_mono cfg L u s v p hp)

theorem expand_covers (cfg : Cfg R C) (L : Lab R C) (u : Fin R × Fin C) :
    ∀ (todo : List (Fin R × Fin C)) (s : RState R C) (v : Fin R × Fin C) (m : Lab R C),
      m ∈ s.LABELS v → ∃ m2 ∈ (expand cfg L u s todo).LABELS v, labLE m2 m := by
  intro todo
  induction todo with
  | nil => intro s v m hm; exact ⟨m, hm, labLE_refl m⟩
  | cons w rest ih =>
    intro s v m hm
    rw [expand_cons]
    obtain ⟨m1, hm1, hle1⟩ := relax_covers cfg L u s w v m hm
    obtain ⟨m2, hm2, hle2⟩ := ih (relax cfg L u s w) v m1 hm1
    exact ⟨m2, hm2, labLE_trans hle2 hle1⟩

theorem expand_labels_entry (cfg : Cfg R C) (L : Lab R C) (u : Fin R × Fin C) :
    ∀ (todo : List (Fin R × Fin C)) (s : RState R C) (v : Fin R × Fin C) (m : Lab R C),
      m ∈ (expand cfg L u s todo).LABELS v →
      m ∈ s.LABELS v ∨ (m, v) ∈ (expand cfg L u s todo).OPEN := by
  intro todo
  induction todo with
  | nil => intro s v m hm; exact Or.inl hm
  | cons w rest ih =>
    intro s v m hm
    rw [expand_cons] at hm ⊢
    rcases ih (relax cfg L u s w) v m hm with h | h
    · rcases relax_labels_entry cfg L u s w v m h with h2 | h2
      · exact Or.inl h2
      · exact Or.inr (expand_OPEN_mono cfg L u rest _ _ h2)
    · exact Or.inr h

theorem expand_sound (cfg : Cfg R C) (L : Lab R C) (u : Fin R × Fin C)
    (hLV : LabValid cfg L u) :
    ∀ (todo : List (Fin R × Fin C)) (s : RState R C),
      (∀ v ∈ todo, v ∈ neighbors R C u) →
      (∀ v, ∀ m ∈ s.LABELS v, LabValid cfg m v) →
      (∀ p ∈ s.OPEN, LabValid cfg p.1 p.2) →
      (∀ v, ∀ m ∈ (expand cfg L u s todo).LABELS v, LabValid cfg m v) ∧
        (∀ p ∈ (expand cfg L u s todo).OPEN, LabValid cfg p.1 p.2) := by
  intro todo
  induction todo with
  | nil => intro s _ h1 h2; exact ⟨h1, h2⟩
  | cons w rest ih =>
    intro s htodo h1 h2
    rw [expand_cons]
    have hw : w ∈ neighbors R C u := htodo w (by simp)
    have hnewvalid : navigable cfg w → LabValid cfg (new_label cfg L u w) w :=
      fun hnav => LabValid.step hLV hw hnav
    refine ih (relax cfg L u s w) (fun v hv => htodo v (by simp [hv])) ?_ ?_
    · intro v m hm
      rcases relax_labels_char cfg L u s w v m hm with h | ⟨hv, hmeq, hnav⟩
      · exact h1 v m h
      · subst hv; subst hmeq
        exact hnewvalid hnav
    · intro p hp
      rcases relax_OPEN_char cfg L u s w p hp with h | ⟨hpeq, hnav⟩
      · exact h2 p h
      · subst hpeq
        exact hnewvalid hnav

theorem expand_anti (cfg : Cfg R C) (L : Lab R C) (u : Fin R × Fin C) :
    ∀ (todo : List (Fin R × Fin C)) (s : RState R C),
      (∀ v, List.Pairwise (fun a b => ¬ dominates a b ∧ ¬ dominates b a) (s.LABELS v)) →
      ∀ v, List.Pairwise (fun a b => ¬ dominates a b ∧ ¬ dominates b a)
        ((expand cfg L u s todo).LABELS v) := by
  intro todo
  induction todo with
  | nil => intro s h; exact h
  | cons w rest ih =>
    intro s h
    rw [expand_cons]
    exact ih (relax cfg L u s w) (relax_anti cfg L u s w h)

theorem expand_K4 (cfg : Cfg R C) (L : Lab R C) (u : Fin R × Fin C) :
    ∀ (todo : List (Fin R × Fin C)) (s : RState R C),
      ∀ v ∈ todo, navigable cfg v →
        ∃ m2 ∈ (expand cfg L u s todo).LABELS v, labLE m2 (new_label cfg L u v) := by
  intro todo
  induction todo with
  | nil => intro s v hv; exact absurd hv (by simp)
  | cons w rest ih =>
    intro s v hv hnav
    rw [expand_cons]
    rcases List.mem_cons.mp hv with hv | hv
    · subst hv
      obtain ⟨m1, hm1, hle1⟩ := relax_K4 cfg L u s v hnav
      obtain ⟨m2, hm2, hle2⟩ := expand_covers cfg L u rest (relax cfg L u s v) v m1 hm1
      exact ⟨m2, hm2, labLE_trans hle2 hle1⟩
    · exact ih (relax cfg L u s w) v hv hnav

theorem inv_init (cfg : Cfg R C) : RunInv cfg (initState cfg) := by
  constructor
  · intro v m hm
    unfold initState at hm
    simp only at hm
    by_cases hv : v = cfg.start
    · rw [if_pos hv] at hm
      have : m = start_label R C := by simpa using hm
      subst this
      rw [hv]
      exact LabValid.start
    · rw [if_neg hv] at hm
      exact absurd hm (by simp)
  · intro p hp
    unfold initState at hp
    have : p = (start_label R C, cfg.start) := by simpa using hp
    subst this
    exact LabValid.start
  · intro v
    unfold initState
    simp only
    by_cases hv : v = cfg.start
    · rw [if_pos hv]
      exact List.pairwise_singleton _ _
    · rw [if_neg hv]
      exact List.Pairwise.nil
  · refine ⟨start_label R C, ?_, labLE_refl _⟩
    unfold initState
    simp
  · intro v m hm
    unfold initState at hm ⊢
    simp only at hm
    by_cases hv : v = cfg.start
    · rw [if_pos hv] at hm
      have : m = start_label R C := by simpa using hm
      subst this
      subst hv
      exact Or.inl (by simp)
    · rw [if_neg hv] at hm
      exact absurd hm (by simp)

theorem step_preserves (cfg : Cfg R C) (s t : RState R C)
    (hInv : RunInv cfg s) (hstep : StepRel cfg s t) : RunInv cfg t := by
  obtain ⟨l₁, l₂, L, u, hO, ht⟩ := hstep
  set s2 : RState R C := { s with OPEN := l₁ ++ l₂ } with hs2
  have hs2L : s2.LABELS = s.LABELS := rfl
  have hopen_sub : ∀ p ∈ s2.OPEN, p ∈ s.OPEN := by
    intro p hp
    rw [hO]
    simp only [hs2] at hp
    rcases List.mem_append.mp hp with h | h
    · exact List.mem_append_left _ h
    · exact List.mem_append_right _ (List.mem_cons_of_mem _ h)
  have hLopen : (L, u) ∈ s.OPEN := by
    rw [hO]
    exact List.mem_append_right _ (by simp)
  have hLvalid : LabValid cfg L u := hInv.sound_open (L, u) hLopen
  have hmem_split : ∀ p : Lab R C × (Fin R × Fin C),
      p ∈ s.OPEN → p ∈ s2.OPEN ∨ p = (L, u) := by
    intro p hp
    rw [hO] at hp
    simp only [hs2]
    rcases List.mem_append.mp hp with h | h
    · exact Or.inl (List.mem_append_left _ h)
    · rcases List.mem_cons.mp h with h | h
      · exact Or.inr h
      · exact Or.inl (List.mem_append_right _ h)
  unfold process at ht
  by_cases hprune : ((s2.LABELS cfg.goal).any fun gl => decide (dominates gl L)) = true
  · rw [if_pos hprune] at ht
    subst ht
    obtain ⟨g, hg, hgdom⟩ := (any_dominates_iff _ _).mp hprune
    refine ⟨hInv.sound_labels, fun p hp => hInv.sound_open p (hopen_sub p hp),
      hInv.anti, hInv.start_low, ?_⟩
    intro v m hm
    rw [hs2L] at hm
    rcases hInv.covered v m hm with h | h | h | h
    · rcases hmem_split (m, v) h with h2 | h2
      · exact Or.inl h2
      · have hm1 : m = L := by
          have := congrArg Prod.fst h2
          simpa using this
        subst hm1
        exact Or.inr (Or.inr (Or.inl ⟨g, hg, dominates_labLE hgdom⟩))
    · exact Or.inr (Or.inl h)
    · exact Or.inr (Or.inr (Or.inl h))
    · exact Or.inr (Or.inr (Or.inr h))
  · rw [if_neg hprune] at ht
    by_cases hgoal : u = cfg.goal
    · rw [if_pos hgoal] at ht
      subst ht
      refine ⟨hInv.sound_labels, fun p hp => hInv.sound_open p (hopen_sub p hp),
        hInv.anti, hInv.start_low, ?_⟩
      intro v m hm
      rw [hs2L] at hm
      rcases hInv.covered v m hm with h | h | h | h
      · rcases hmem_split (m, v) h with h2 | h2
        · exact Or.inl h2
        · have hv1 : v = u := by
            have := congrArg Prod.snd h2
            simpa using this
          subst hv1
          exact Or.inr (Or.inl hgoal)
      · exact Or.inr (Or.inl h)
      · exact Or.inr (Or.inr (Or.inl h))
      · exact Or.inr (Or.inr (Or.inr h))
    · rw [if_neg hgoal] at ht
      subst ht
      have hsound := expand_sound cfg L u hLvalid (neighbors R C u) s2
        (fun v hv => hv)
        (fun v m hm => hInv.sound_labels v m (hs2L ▸ hm))
        (fun p hp => hInv.sound_open p (hopen_sub p hp))
      refine ⟨hsound.1, hsound.2, ?_, ?_, ?_⟩
      · exact expand_anti cfg L u (neighbors R C u) s2 (fun v => hs2L ▸ hInv.anti v)
      · obtain ⟨m, hm, hle⟩ := hInv.start_low
        obtain ⟨m2, hm2, hle2⟩ :=
          expand_covers cfg L u (neighbors R C u) s2 cfg.start m (hs2L ▸ hm)
        exact ⟨m2, hm2, labLE_trans hle2 hle⟩
      · intro v m hm
        rcases expand_labels_entry cfg L u (neighbors R C u) s2 v m hm with hold | hnew
        · rw [hs2L] at hold
          rcases hInv.covered v m hold with h | h | h | h
          · rcases hmem_split (m, v) h with h2 | h2
            · exact Or.inl (expand_OPEN_mono cfg L u (neighbors R C u) s2 (m, v) h2)
            · have hm1 : m = L := by
                have := congrArg Prod.fst h2
                simpa using this
              have hv1 : v = u := by
                have := congrArg Prod.snd h2
                simpa using this
              subst hm1
              subst hv1
              refine Or.inr (Or.inr (Or.inr ?_))
              intro w hw hnavw
              exact expand_K4 cfg m v (neighbors R C v) s2 w hw hnavw
          · exact Or.inr (Or.inl h)
          · obtain ⟨g, hg, hle⟩ := h
            obtain ⟨g2, hg2, hle2⟩ :=
              expand_covers cfg L u (neighbors R C u) s2 cfg.goal g (hs2L ▸ hg)
            exact Or.inr (Or.inr (Or.inl ⟨g2, hg2, labLE_trans hle2 hle⟩))
          · refine Or.inr (Or.inr (Or.inr ?_))
            intro w hw hnavw
            obtain ⟨m2, hm2, hle⟩ := h w hw hnavw
            obtain ⟨m3, hm3, hle3⟩ :=
              expand_covers cfg L u (neighbors R C u) s2 w m2 (hs2L ▸ hm2)
            exact ⟨m3, hm3, labLE_trans hle3 hle⟩
        · exact Or.inl hnew

/-- Every reachable state of the search satisfies the invariant. -/
theorem reachable_inv (cfg : Cfg R C) (s : RState R C) (h : Reachable cfg s) :
    RunInv cfg s := by
  induction h with
  | refl => exact inv_init cfg
  | tail hsteps hstep ih => exact step_preserves cfg _ _ ih hstep

/-- Any route can be truncated at its first goal visit: either the goal has
a goal-avoiding route, or the route itself never visits the goal. -/
theorem route_truncate {cfg : Cfg R C} {u : Fin R × Fin C} {l : List (Fin R × Fin C)}
    (h : RouteTo cfg u l) :
    AvoidRoute cfg cfg.goal ∨ (u ≠ cfg.goal ∧ AvoidRoute cfg u) := by
  induction h with
  | start =>
    by_cases hsg : cfg.start = cfg.goal
    · exact Or.inl (hsg ▸ AvoidRoute.start)
    · exact Or.inr ⟨hsg, AvoidRoute.start⟩
  | @step u v l hroute hnb hnav ih =>
    rcases ih with h | ⟨hne, har⟩
    · exact Or.inl h
    · have hav : AvoidRoute cfg v := AvoidRoute.step har hne hnb hnav
      by_cases hvg : v = cfg.goal
      · exact Or.inl (hvg ▸ hav)
      · exact Or.inr ⟨hvg, hav⟩

/-- In a terminal state (empty queue), every node with a goal-avoiding
route either witnesses a nonempty goal frontier or holds a label itself. -/
theorem terminal_progress (cfg : Cfg R C) (s : RState R C)
    (hInv : RunInv cfg s) (hT : s.OPEN = []) :
    ∀ u, AvoidRoute cfg u → s.LABELS cfg.goal ≠ [] ∨ ∃ m, m ∈ s.LABELS u := by
  intro u h
  induction h with
  | start =>
    obtain ⟨m, hm, -⟩ := hInv.start_low
    exact Or.inr ⟨m, hm⟩
  | @step u v har hne hnb hnav ih =>
    rcases ih with h | ⟨m, hm⟩
    · exact Or.inl h
    · rcases hInv.covered u m hm with h | h | h | h
      · rw [hT] at h
        exact absurd h (by simp)
      · exact absurd h hne
      · obtain ⟨g, hg, -⟩ := h
        exact Or.inl (List.ne_nil_of_mem hg)
      · obtain ⟨m2, hm2, -⟩ := h v hnb hnav
        exact Or.inr ⟨m2, hm2⟩

/-- In a terminal state, a reachable goal has a nonempty frontier. -/
theorem terminal_goal_nonempty (cfg : Cfg R C) (s : RState R C)
    (hInv : RunInv cfg s) (hT : s.OPEN = [])
    (hroute : ∃ l, RouteTo cfg cfg.goal l) : s.LABELS cfg.goal ≠ [] := by
  obtain ⟨l, hl⟩ := hroute
  have hav : AvoidRoute cfg cfg.goal := by
    rcases route_truncate hl with h | ⟨hne, -⟩
    · exact h
    · exact absurd rfl hne
  rcases terminal_progress cfg s hInv hT cfg.goal hav with h | ⟨m, hm⟩
  · exact h
  · exact List.ne_nil_of_mem hm

theorem relax_pushes (cfg : Cfg R C) (L : Lab R C) (u : Fin R × Fin C)
    (s : RState R C) (nb : Fin R × Fin C) (hnav : navigable cfg nb)
    (hnd : ∀ e ∈ s.LABELS nb, ¬ dominates e (new_label cfg L u nb)) :
    (new_label cfg L u nb, nb) ∈ (relax cfg L u s nb).OPEN := by
  rcases relax_char cfg L u s nb with ⟨-, hc⟩ | ⟨-, -, heq⟩
  · rcases hc with hc | ⟨e, he, hd⟩
    · exact absurd hnav hc
    · exact absurd hd (hnd e he)
  · rw [heq]
    exact List.mem_append_right _ (by simp)

theorem expand_OPEN_char (cfg : Cfg R C) (L : Lab R C) (u : Fin R × Fin C) :
    ∀ (todo : List (Fin R × Fin C)) (s : RState R C) (p : Lab R C × (Fin R × Fin C)),
      p ∈ (expand cfg L u s todo).OPEN →
      p ∈ s.OPEN ∨ ∃ v ∈ todo, p = (new_label cfg L u v, v) ∧ navigable cfg v := by
  intro todo
  induction todo with
  | nil => intro s p hp; exact Or.inl hp
  | cons w rest ih =>
    intro s p hp
    rw [expand_cons] at hp
    rcases ih (relax cfg L u s w) p hp with h | ⟨v, hv, hpe, hnav⟩
    · rcases relax_OPEN_char cfg L u s w p h with h2 | ⟨hpe, hnav⟩
      · exact Or.inl h2
      · exact Or.inr ⟨w, by simp, hpe, hnav⟩
    · exact Or.inr ⟨v, by simp [hv], hpe, hnav⟩

theorem expand_labels_src (cfg : Cfg R C) (L : Lab R C) (u : Fin R × Fin C) :
    ∀ (todo : List (Fin R × Fin C)) (s : RState R C) (v : Fin R × Fin C) (m : Lab R C),
      m ∈ (expand cfg L u s todo).LABELS v →
      m ∈ s.LABELS v ∨ (v ∈ todo ∧ m = new_label cfg L u v ∧ navigable cfg v) := by
  intro todo
  induction todo with
  | nil => intro s v m hm; exact Or.inl hm
  | cons w rest ih =>
    intro s v m hm
    rw [expand_cons] at hm
    rcases ih (relax cfg L u s w) v m hm with h | ⟨hv, hme, hnav⟩
    · rcases relax_labels_char cfg L u s w v m h with h2 | ⟨hv, hme, hnav⟩
      · exact Or.inl h2
      · subst hv
        exact Or.inr ⟨by simp, hme, hnav⟩
    · exact Or.inr ⟨by simp [hv], hme, hnav⟩

theorem mem_of_mem_middle {α : Type} {p e : α} {l₁ l₂ : List α}
    (hp : p ∈ l₁ ++ e :: l₂) (hne : p ≠ e) : p ∈ l₁ ++ l₂ := by
  rcases List.mem_append.mp hp with h | h
  · exact List.mem_append_left _ h
  · rcases List.mem_cons.mp h with h | h
    · exact absurd h hne
    · exact List.mem_append_right _ h

theorem Fr.toReal_num_zero {x : Fr} (h : x.num = 0) : x.toReal = 0 := by
  unfold Fr.toReal
  rw [h]
  simp

theorem risk_inc13_zero : ∀ v : Fin 1 × Fin 3, (risk_increment cfg13 v).num = 0 := by
  decide

theorem tf_inc13_zero : ∀ u v : Fin 1 × Fin 3, v ∈ neighbors 1 3 u →
    ((time_increment cfg13 u v).add (fuel_increment cfg13 u v)).a.num = 0 ∧
      ((time_increment cfg13 u v).add (fuel_increment cfg13 u v)).b.num = 0 := by
  decide

theorem balanced13_start : balanced13 (start_label 1 3) := by
  unfold balanced13 start_label
  simp only [Lab.risk, Lab.time, Lab.fuel]
  rw [Q2.toReal_zero_q2]
  norm_num

theorem balanced13_new {L : Lab 1 3} {u v : Fin 1 × Fin 3}
    (hL : balanced13 L) (hv : v ∈ neighbors 1 3 u) :
    balanced13 (new_label cfg13 L u v) := by
  obtain ⟨hr, htf⟩ := hL
  obtain ⟨hta, htb⟩ := tf_inc13_zero u v hv
  have hrinc : (Q2.ofFr (risk_increment cfg13 v)).toReal = 0 := by
    rw [Q2.toReal_ofFr]
    exact Fr.toReal_num_zero (risk_inc13_zero v)
  have htfinc : (time_increment cfg13 u v).toReal + (fuel_increment cfg13 u v).toReal = 0 := by
    rw [← Q2.toReal_add_q2]
    unfold Q2.toReal
    rw [Fr.toReal_num_zero hta, Fr.toReal_num_zero htb]
    ring
  constructor
  · show (L.risk.add (Q2.ofFr (risk_increment cfg13 v))).toReal = 0
    rw [Q2.toReal_add_q2, hr, hrinc]
    ring
  · show (L.time.add (time_increment cfg13 u v)).toReal +
      (L.fuel.add (fuel_increment cfg13 u v)).toReal = 0
    rw [Q2.toReal_add_q2, Q2.toReal_add_q2]
    linarith

theorem balanced13_no_dom {x y : Lab 1 3} (hx : balanced13 x) (hy : balanced13 y) :
    ¬ dominates x y := by
  obtain ⟨hxr, hxt⟩ := hx
  obtain ⟨hyr, hyt⟩ := hy
  rintro ⟨h1, h2, h3, hs⟩
  rw [Q2.le_iff_q2] at h1 h2 h3
  rcases hs with h | h | h <;> rw [Q2.lt_iff_q2] at h <;> linarith

theorem nInv_init : NInv (initState cfg13) := by
  constructor
  · intro v m hm
    unfold initState at hm
    simp only at hm
    by_cases hv : v = cfg13.start
    · rw [if_pos hv] at hm
      have : m = start_label 1 3 := by simpa using hm
      subst this
      exact balanced13_start
    · rw [if_neg hv] at hm
      exact absurd hm (by simp)
  · intro p hp
    have : p = (start_label 1 3, cfg13.start) := by simpa [initState] using hp
    subst this
    exact balanced13_start
  · refine ⟨(start_label 1 3, cfg13.start), by simp [initState], by decide⟩

theorem nInv_step (s t : RState 1 3) (hInv : NInv s) (hstep : StepRel cfg13 s t) :
    NInv t := by
  obtain ⟨l₁, l₂, L, u, hO, ht⟩ := hstep
  set s2 : RState 1 3 := { s with OPEN := l₁ ++ l₂ } with hs2
  have hs2L : s2.LABELS = s.LABELS := rfl
  have hopen_sub : ∀ p ∈ s2.OPEN, p ∈ s.OPEN := by
    intro p hp
    rw [hO]
    simp only [hs2] at hp
    rcases List.mem_append.mp hp with h | h
    · exact List.mem_append_left _ h
    · exact List.mem_append_right _ (List.mem_cons_of_mem _ h)
  have hLopen : (L, u) ∈ s.OPEN := by
    rw [hO]
    exact List.mem_append_right _ (by simp)
  have hLbal : balanced13 L := hInv.bal_open (L, u) hLopen
  have hprune_false :
      ((s2.LABELS cfg13.goal).any fun gl => decide (dominates gl L)) ≠ true := by
    intro hcontra
    obtain ⟨g, hg, hdom⟩ := (any_dominates_iff _ _).mp hcontra
    exact balanced13_no_dom (hInv.bal_labels cfg13.goal g (hs2L ▸ hg)) hLbal hdom
  unfold process at ht
  rw [if_neg hprune_false] at ht
  by_cases hgoal : u = cfg13.goal
  · rw [if_pos hgoal] at ht
    subst ht
    refine ⟨fun v m hm => hInv.bal_labels v m (hs2L ▸ hm),
      fun p hp => hInv.bal_open p (hopen_sub p hp), ?_⟩
    obtain ⟨p, hp, hpne⟩ := hInv.nongoal
    refine ⟨p, ?_, hpne⟩
    have hpne2 : p ≠ (L, u) := by
      intro hcontra
      rw [hcontra] at hpne
      exact hpne hgoal
    rw [hO] at hp
    exact mem_of_mem_middle hp hpne2
  · rw [if_neg hgoal] at ht
    subst ht
    have hbal_new : ∀ v ∈ neighbors 1 3 u, balanced13 (new_label cfg13 L u v) :=
      fun v hv => balanced13_new hLbal hv
    refine ⟨?_, ?_, ?_⟩
    · intro v m hm
      rcases expand_labels_src cfg13 L u (neighbors 1 3 u) s2 v m hm with h | ⟨hv, hme, -⟩
      · exact hInv.bal_labels v m (hs2L ▸ h)
      · subst hme
        exact hbal_new v hv
    · intro p hp
      rcases expand_OPEN_char cfg13 L u (neighbors 1 3 u) s2 p hp with h | ⟨v, hv, hpe, -⟩
      · exact hInv.bal_open p (hopen_sub p h)
      · subst hpe
        exact hbal_new v hv
    · -- the first neighbor of any non-goal node of cfg13 is navigable and
      -- is not the goal; its candidate is pushed, because no balanced label
      -- dominates the balanced candidate
      obtain ⟨r, c⟩ := u
      have hr : r = 0 := by omega
      subst hr
      have hmain : ∀ v0 rest, neighbors 1 3 ((0 : Fin 1), c) = v0 :: rest →
          navigable cfg13 v0 → v0 ≠ cfg13.goal →
          ∃ p ∈ (expand cfg13 L ((0 : Fin 1), c) s2
            (neighbors 1 3 ((0 : Fin 1), c))).OPEN, p.2 ≠ cfg13.goal := by
        intro v0 rest hnb hnav hne
        refine ⟨(new_label cfg13 L ((0 : Fin 1), c) v0, v0), ?_, hne⟩
        rw [hnb, expand_cons]
        refine expand_OPEN_mono cfg13 L _ rest _ _ ?_
        refine relax_pushes cfg13 L _ s2 v0 hnav ?_
        intro e he
        exact balanced13_no_dom (hInv.bal_labels v0 e (hs2L ▸ he))
          (hbal_new v0 (by rw [hnb]; simp))
      fin_cases c
      · exact hmain ((0 : Fin 1), (1 : Fin 3)) [] (by decide) (by decide) (by decide)
      · exact hmain ((0 : Fin 1), (0 : Fin 3)) [((0 : Fin 1), (2 : Fin 3))]
          (by decide) (by decide) (by decide)
      · exact absurd rfl hgoal

theorem nInv_reachable (s : RState 1 3) (h : Reachable cfg13 s) : NInv s := by
  induction h with
  | refl => exact nInv_init
  | tail hsteps hstep ih => exact nInv_step _ _ ih hstep

theorem neighbors_mem_char {u v : Fin R × Fin C} (h : v ∈ neighbors R C u) :
    ∃ d ∈ directions, (v.1 : ℤ) = (u.1 : ℤ) + d.1 ∧ (v.2 : ℤ) = (u.2 : ℤ) + d.2 := by
  simp only [neighbors, List.mem_filterMap] at h
  obtain ⟨d, hd, hsome⟩ := h
  refine ⟨d, hd, ?_⟩
  split at hsome
  case isTrue hb =>
    obtain ⟨hb1, hb2, hb3, hb4⟩ := hb
    have hv := Option.some.inj hsome
    constructor
    · have : (v.1 : ℕ) = ((u.1 : ℤ) + d.1).toNat := by rw [← hv]
      omega
    · have : (v.2 : ℕ) = ((u.2 : ℤ) + d.2).toNat := by rw [← hv]
      omega
  case isFalse => exact absurd hsome (by simp)

/-- On a node and one of its 8-connected neighbors, the Euclidean distance
of the source is exactly 1 for a cardinal step (same row or same column)
and the square root of 2 for a diagonal step. -/
theorem distance_on_neighbors {u v : Fin R × Fin C} (h : v ∈ neighbors R C u) :
    distance R C u v = (if u.1 = v.1 ∨ u.2 = v.2 then Q2.ofFr 1 else Q2.sqrt2) := by
  obtain ⟨d, hd, h1, h2⟩ := neighbors_mem_char h
  have hrow : u.1 = v.1 ↔ d.1 = 0 := by
    rw [Fin.ext_iff]
    omega
  have hcol : u.2 = v.2 ↔ d.2 = 0 := by
    rw [Fin.ext_iff]
    omega
  simp only [distance]
  have hs : ((u.1 : ℤ) - (v.1 : ℤ)) ^ 2 + ((u.2 : ℤ) - (v.2 : ℤ)) ^ 2 =
      d.1 ^ 2 + d.2 ^ 2 := by
    rw [h1, h2]
    ring
  rw [hs]
  simp only [directions, List.mem_cons, List.not_mem_nil, or_false] at hd
  rcases hd with rfl | rfl | rfl | rfl | rfl | rfl | rfl | rfl <;>
    simp only [hrow, hcol] <;> norm_num

theorem fmax_eq_of_le {a b : Fr} (h : Fr.le a b) : Fr.fmax a b = b := by
  unfold Fr.fmax
  rw [if_pos h]

theorem fmax_tenth_pos (x : Fr) : Fr.lt 0 (Fr.fmax tenth x) := by
  rw [Fr.lt_iff, Fr.toReal_fmax, Fr.toReal_zero]
  have : tenth.toReal = 1 / 10 := by
    unfold tenth Fr.toReal
    norm_num
  rw [this]
  rcases le_or_lt x.toReal (1 / 10) with h | h
  · rw [max_eq_left h]; norm_num
  · rw [max_eq_right h.le]; linarith

theorem c9_process_eq (cfg : Cfg R C) (hsg : cfg.start = cfg.goal) :
    process cfg { LABELS := (initState cfg).LABELS, OPEN := [] } (start_label R C)
      cfg.start = { LABELS := (initState cfg).LABELS, OPEN := [] } := by
  have hgl : (initState cfg).LABELS cfg.goal = [start_label R C] := by
    show (if cfg.goal = cfg.start then [start_label R C] else []) = _
    rw [if_pos hsg.symm]
  unfold process
  have hany : (((initState cfg).LABELS cfg.goal).any fun gl =>
      decide (dominates gl (start_label R C))) = false := by
    rw [hgl]
    simp only [List.any_cons, List.any_nil, Bool.or_false]
    exact decide_eq_false (dominates_irrefl _)
  rw [if_neg (by rw [hany]; simp)]
  rw [if_pos hsg]

theorem c9_unique_step (cfg : Cfg R C) (hsg : cfg.start = cfg.goal) (t : RState R C)
    (hstep : StepRel cfg (initState cfg) t) :
    t = { LABELS := (initState cfg).LABELS, OPEN := [] } := by
  obtain ⟨l₁, l₂, L, u, hO, ht⟩ := hstep
  have hO2 : [(start_label R C, cfg.start)] = l₁ ++ (L, u) :: l₂ := hO
  cases l₁ with
  | cons a as =>
    have := congrArg List.length hO2
    simp at this
  | nil =>
    simp only [List.nil_append, List.cons.injEq] at hO2
    obtain ⟨hpair, hl2⟩ := hO2
    have hL : start_label R C = L := congrArg Prod.fst hpair
    have hu : cfg.start = u := congrArg Prod.snd hpair
    subst hl2
    rw [ht, ← hL, ← hu]
    exact c9_process_eq cfg hsg

theorem c9_reach_char (cfg : Cfg R C) (hsg : cfg.start = cfg.goal) (s : RState R C)
    (h : Reachable cfg s) :
    s = initState cfg ∨ s = { LABELS := (initState cfg).LABELS, OPEN := [] } := by
  induction h with
  | refl => exact Or.inl rfl
  | tail hsteps hstep ih =>
    rcases ih with rfl | rfl
    · exact Or.inr (c9_unique_step cfg hsg _ hstep)
    · obtain ⟨l₁, l₂, L, u, hO, -⟩ := hstep
      have : ([] : List (Lab R C × (Fin R × Fin C))) = l₁ ++ (L, u) :: l₂ := hO
      cases l₁ <;> simp at this

/-- C9: if the start cell equals the goal cell, every run of
pareto_optimal_path keeps the goal frontier exactly equal to the singleton
start label, whose risk, time and fuel are all zero and which has no
predecessor, regardless of the navigability of that cell; and a terminal
(returning) state is reached. -/
theorem c9_start_eq_goal_singleton (R C : ℕ) (cfg : Cfg R C)
    (hsg : cfg.start = cfg.goal) :
    (∀ s, Reachable cfg s → s.LABELS cfg.goal = [Lab.mk 0 0 0 none]) ∧
    (∃ s, Reachable cfg s ∧ s.OPEN = []) := by
  have hgl : (initState cfg).LABELS cfg.goal = [Lab.mk 0 0 0 none] := by
    show (if cfg.goal = cfg.start then [start_label R C] else []) = _
    rw [if_pos hsg.symm]
    rfl
  constructor
  · intro s h
    rcases c9_reach_char cfg hsg s h with rfl | rfl
    · exact hgl
    · exact hgl
  · refine ⟨{ LABELS := (initState cfg).LABELS, OPEN := [] },
      Relation.ReflTransGen.single ?_, rfl⟩
    refine ⟨[], [], start_label R C, cfg.start, by simp [initState], ?_⟩
    exact (c9_process_eq cfg hsg).symm

/-- C9 witness: on a single-cell grid whose only cell is not navigable and
serves as both start and goal, the goal frontier of every reachable state
is exactly the zero label without predecessor, and the run terminates. -/
theorem c9_witness :
    (cfgSelf.grid cfgSelf.start).is_clickable = false ∧
    ((∀ s, Reachable cfgSelf s → s.LABELS cfgSelf.goal = [Lab.mk 0 0 0 none]) ∧
      (∃ s, Reachable cfgSelf s ∧ s.OPEN = [])) :=
  ⟨by decide, c9_start_eq_goal_singleton 1 1 cfgSelf rfl⟩

/-- C2: when the start differs from the goal, the returned goal frontier is
empty exactly when no route of navigable cells reaches the goal: with no
route, every reachable state (hence any returned value) has an empty goal
frontier; with a route, every terminal state has a nonempty goal frontier,
so the two outcomes are distinguishable. -/
theorem c2_empty_frontier_iff_unreachable (R C : ℕ) (cfg : Cfg R C)
    (hne : cfg.start ≠ cfg.goal) :
    ((¬ ∃ l, RouteTo cfg cfg.goal l) →
      ∀ s, Reachable cfg s → s.LABELS cfg.goal = []) ∧
    ((∃ l, RouteTo cfg cfg.goal l) →
      ∀ s, Reachable cfg s → s.OPEN = [] → s.LABELS cfg.goal ≠ []) := by
  constructor
  · intro hnoroute s hs
    have hInv := reachable_inv cfg s hs
    rw [List.eq_nil_iff_forall_not_mem]
    intro m hm
    exact hnoroute (labValid_route (hInv.sound_labels cfg.goal m hm))
  · intro hroute s hs hT
    exact terminal_goal_nonempty cfg s (reachable_inv cfg s hs) hT hroute

/-- C2 witness: a 1 by 2 grid with a non-navigable goal cell.  There is no
route, the frontier of the terminal state the deterministic run reaches is
empty, and the theorem applies. -/
theorem c2_witness :
    cfgBlocked.start ≠ cfgBlocked.goal ∧
    (runHead cfgBlocked 5 (initState cfgBlocked)).OPEN.length = 0 ∧
    ((runHead cfgBlocked 5 (initState cfgBlocked)).LABELS cfgBlocked.goal).length = 0 ∧
    (∀ s, Reachable cfgBlocked s → s.LABELS cfgBlocked.goal = []) := by
  have hne : cfgBlocked.start ≠ cfgBlocked.goal := by decide
  have hnogoal : ∀ u l, RouteTo cfgBlocked u l → u ≠ cfgBlocked.goal := by
    intro u l h
    induction h with
    | start => decide
    | @step u v l hr hnb hnav ih =>
      intro hveq
      rw [hveq] at hnav
      revert hnav
      decide
  have hnoroute : ¬ ∃ l, RouteTo cfgBlocked cfgBlocked.goal l := by
    rintro ⟨l, hl⟩
    exact hnogoal _ l hl rfl
  exact ⟨hne, by decide, by decide,
    (c2_empty_frontier_iff_unreachable 1 2 cfgBlocked hne).1 hnoroute⟩

/-- C5 amended: in every reachable state of pareto_optimal_path, and hence
in the returned goal frontier, any two distinct labels stored in the same
node label list are mutually non-dominating.  (The second half of the
original claim fails: one representative per cost vector is not enforced,
see the counterexample.) -/
theorem c5_frontier_antichain (R C : ℕ) (cfg : Cfg R C) (s : RState R C)
    (h : Reachable cfg s) (v : Fin R × Fin C) :
    List.Pairwise (fun a b => ¬ dominates a b ∧ ¬ dominates b a) (s.LABELS v) :=
  (reachable_inv cfg s h).anti v

/-- C5 witness: the antichain property evaluated on the goal frontier of
the terminal state of a concrete run. -/
theorem c5_witness :
    List.Pairwise (fun a b => ¬ dominates a b ∧ ¬ dominates b a)
      ((runHead cfgDup 30 (initState cfgDup)).LABELS cfgDup.goal) :=
  c5_frontier_antichain 2 3 cfgDup _ (runHead_reachable cfgDup 30) cfgDup.goal

/-- C5 counterexample: on cfgDup the run terminates with a goal frontier of
exactly two labels carrying the same cost vector (the two symmetric 2-step
routes), so a frontier does keep two labels with one cost vector beyond a
single representative. -/
theorem c5_counterexample :
    (runHead cfgDup 30 (initState cfgDup)).OPEN.length = 0 ∧
    ((runHead cfgDup 30 (initState cfgDup)).LABELS cfgDup.goal).length = 2 ∧
    List.Pairwise sameCost ((runHead cfgDup 30 (initState cfgDup)).LABELS cfgDup.goal) :=
  ⟨by decide, by decide, by decide⟩

/-- C7: for every label of the goal frontier of any reachable state, the
reconstructed path (predecessor chain walk, reversed, with the goal node
appended as in get_final_path_points) starts at the start node and ends at
the goal node. -/
theorem c7_reconstruct_endpoints (R C : ℕ) (cfg : Cfg R C) (s : RState R C)
    (h : Reachable cfg s) :
    ∀ m ∈ s.LABELS cfg.goal,
      (reconstruct_path m ++ [cfg.goal]).head? = some cfg.start ∧
      (reconstruct_path m ++ [cfg.goal]).getLast? = some cfg.goal := by
  intro m hm
  exact reconstruct_endpoints ((reachable_inv cfg s h).sound_labels cfg.goal m hm)

/-- C7 witness: the endpoints of the reconstruction of the start label on a
single-cell instance. -/
theorem c7_witness :
    (reconstruct_path (Lab.mk 0 0 0 none) ++ [cfgSelfNav.goal]).head? =
      some cfgSelfNav.start ∧
    (reconstruct_path (Lab.mk 0 0 0 none) ++ [cfgSelfNav.goal]).getLast? =
      some cfgSelfNav.goal := by
  have hmem : (Lab.mk 0 0 0 none : Lab 1 1) ∈
      (initState cfgSelfNav).LABELS cfgSelfNav.goal := by
    have hgs : cfgSelfNav.goal = cfgSelfNav.start := rfl
    show _ ∈ (if cfgSelfNav.goal = cfgSelfNav.start then [start_label 1 1] else [])
    rw [if_pos hgs]
    exact List.mem_singleton.mpr rfl
  exact c7_reconstruct_endpoints 1 1 cfgSelfNav (initState cfgSelfNav)
    Relation.ReflTransGen.refl (Lab.mk 0 0 0 none) hmem

/-- C10: the router never tests the navigability of the start cell: on a
1 by 2 grid whose start cell is not navigable while the goal cell is, the
run terminates with a nonempty goal frontier. -/
theorem c10_start_navigability_untested :
    (cfg10.grid cfg10.start).is_clickable = false ∧
    navigable cfg10 cfg10.goal ∧
    (runHead cfg10 2 (initState cfg10)).OPEN.length = 0 ∧
    ((runHead cfg10 2 (initState cfg10)).LABELS cfg10.goal).length = 1 :=
  ⟨by decide, by decide, by decide, by decide⟩

/-- C1 (code bug): on a 1 by 3 all-navigable grid whose cells satisfy every
data-model range, with the vessel profile (speed 1, fuel rate -1,
durability 1) that the unclamped base_fuel_rate allows, no reachable state
of pareto_optimal_path ever empties its queue, under any pop order: the
search never terminates, so it cannot return the claimed Pareto frontier. -/
theorem c1_negative_fuel_rate_nonterminating :
    (∀ v : Fin 1 × Fin 3, Fr.le 0 (cfg13.grid v).risk ∧ Fr.le 1 (cfg13.grid v).time ∧
      Fr.le 1 (cfg13.grid v).fuel ∧ Fr.le 0 (cfg13.grid v).weather) ∧
    Fr.lt cfg13.ship.base_fuel_rate 0 ∧
    (∀ s, Reachable cfg13 s → s.OPEN ≠ []) := by
  refine ⟨by decide, by decide, ?_⟩
  intro s h hempty
  obtain ⟨p, hp, -⟩ := (nInv_reachable s h).nongoal
  rw [hempty] at hp
  exact absurd hp (by simp)

/-- C4 (code bug): base_fuel_rate enters the fuel formula unclamped: with
the vessel (1, -1, 1) the fuel increment of a step is negative, while the
clamped formula of the claim would make it positive; only base_speed and
durability are clamped to at least 0.1. -/
theorem c4_base_fuel_rate_unclamped :
    Fr.lt cfg13.ship.base_fuel_rate 0 ∧
    Q2.lt (fuel_increment cfg13 ((0 : Fin 1), (0 : Fin 3)) ((0 : Fin 1), (1 : Fin 3))) 0 ∧
    Q2.lt 0 (fuel_increment_clamped cfg13 ((0 : Fin 1), (0 : Fin 3))
      ((0 : Fin 1), (1 : Fin 3))) ∧
    (∀ ship : Ship, Fr.lt 0 (Fr.fmax tenth ship.base_speed) ∧
      Fr.lt 0 (Fr.fmax tenth ship.durability)) :=
  ⟨by decide, by decide, by decide, fun _ => ⟨fmax_tenth_pos _, fmax_tenth_pos _⟩⟩

/-- C3 amended: extending a label to a navigable neighbor builds the
candidate by adding exactly the claimed increments with the divisors
written as the clamped values max(0.1, durability) and max(0.1,
base_speed), and with the edge distance of a diagonal step the square
root of 2, not 1 over the square root of 2: risk max(0, risk + alpha
weather over max(0.1, durability)), time equal cell time times edge
distance over max(0.1, base_speed), and fuel equal base_fuel_rate times
cell fuel times (1 + gamma weather over max(0.1, durability)) times edge
distance; for every vessel profile. -/
theorem c3_amended_increments (R C : ℕ) (cfg : Cfg R C) (L : Lab R C)
    (u v : Fin R × Fin C)
    (hv : v ∈ neighbors R C u) :
    risk_increment cfg v =
      Fr.fmax 0 ((cfg.grid v).risk.add
        ((cfg.alpha.mul (cfg.grid v).weather).mul
          (Fr.inv (Fr.fmax tenth cfg.ship.durability)))) ∧
    time_increment cfg u v =
      Q2.smul ((cfg.grid v).time.mul (Fr.inv (Fr.fmax tenth cfg.ship.base_speed)))
        (if u.1 = v.1 ∨ u.2 = v.2 then Q2.ofFr 1 else Q2.sqrt2) ∧
    fuel_increment cfg u v =
      Q2.smul ((cfg.ship.base_fuel_rate.mul (cfg.grid v).fuel).mul
        ((1 : Fr).add ((cfg.gamma.mul (cfg.grid v).weather).mul
          (Fr.inv (Fr.fmax tenth cfg.ship.durability)))))
        (if u.1 = v.1 ∨ u.2 = v.2 then Q2.ofFr 1 else Q2.sqrt2) ∧
    new_label cfg L u v = Lab.mk
      (L.risk.add (Q2.ofFr (risk_increment cfg v)))
      (L.time.add (time_increment cfg u v))
      (L.fuel.add (fuel_increment cfg u v))
      (some (u, L)) := by
  refine ⟨rfl, ?_, ?_, rfl⟩
  · unfold time_increment
    rw [distance_on_neighbors hv]
    rfl
  · unfold fuel_increment
    rw [distance_on_neighbors hv]
    rfl

/-- C3 witness: the amended increment formulas instantiated on a concrete
cardinal step of cfgDiag. -/
theorem c3_witness :
    (((0 : Fin 2), (1 : Fin 2)) ∈ neighbors 2 2 ((0 : Fin 2), (0 : Fin 2))) ∧
    (risk_increment cfgDiag ((0 : Fin 2), (1 : Fin 2)) =
      Fr.fmax 0 ((cfgDiag.grid ((0 : Fin 2), (1 : Fin 2))).risk.add
        ((cfgDiag.alpha.mul (cfgDiag.grid ((0 : Fin 2), (1 : Fin 2))).weather).mul
          (Fr.inv (Fr.fmax tenth cfgDiag.ship.durability)))) ∧
    time_increment cfgDiag ((0 : Fin 2), (0 : Fin 2)) ((0 : Fin 2), (1 : Fin 2)) =
      Q2.smul ((cfgDiag.grid ((0 : Fin 2), (1 : Fin 2))).time.mul
        (Fr.inv (Fr.fmax tenth cfgDiag.ship.base_speed)))
        (if ((0 : Fin 2), (0 : Fin 2)).1 = ((0 : Fin 2), (1 : Fin 2)).1 ∨
          ((0 : Fin 2), (0 : Fin 2)).2 = ((0 : Fin 2), (1 : Fin 2)).2 then Q2.ofFr 1
          else Q2.sqrt2) ∧
    fuel_increment cfgDiag ((0 : Fin 2), (0 : Fin 2)) ((0 : Fin 2), (1 : Fin 2)) =
      Q2.smul ((cfgDiag.ship.base_fuel_rate.mul
        (cfgDiag.grid ((0 : Fin 2), (1 : Fin 2))).fuel).mul
        ((1 : Fr).add ((cfgDiag.gamma.mul
          (cfgDiag.grid ((0 : Fin 2), (1 : Fin 2))).weather).mul
          (Fr.inv (Fr.fmax tenth cfgDiag.ship.durability)))))
        (if ((0 : Fin 2), (0 : Fin 2)).1 = ((0 : Fin 2), (1 : Fin 2)).1 ∨
          ((0 : Fin 2), (0 : Fin 2)).2 = ((0 : Fin 2), (1 : Fin 2)).2 then Q2.ofFr 1
          else Q2.sqrt2) ∧
    new_label cfgDiag (start_label 2 2) ((0 : Fin 2), (0 : Fin 2))
        ((0 : Fin 2), (1 : Fin 2)) = Lab.mk
      ((start_label 2 2).risk.add (Q2.ofFr (risk_increment cfgDiag
        ((0 : Fin 2), (1 : Fin 2)))))
      ((start_label 2 2).time.add (time_increment cfgDiag ((0 : Fin 2), (0 : Fin 2))
        ((0 : Fin 2), (1 : Fin 2))))
      ((start_label 2 2).fuel.add (fuel_increment cfgDiag ((0 : Fin 2), (0 : Fin 2))
        ((0 : Fin 2), (1 : Fin 2))))
      (some (((0 : Fin 2), (0 : Fin 2)), start_label 2 2))) :=
  ⟨by decide,
    c3_amended_increments 2 2 cfgDiag (start_label 2 2) ((0 : Fin 2), (0 : Fin 2))
      ((0 : Fin 2), (1 : Fin 2)) (by decide)⟩

/-- C3 counterexample: on the diagonal step of cfgDiag the time increment
the source computes is strictly larger than the increment the claim asserts
with edge distance 1 over the square root of 2, and the label actually
stored after the first expansion carries the larger time. -/
theorem c3_counterexample :
    ((1 : Fin 2), (1 : Fin 2)) ∈ neighbors 2 2 ((0 : Fin 2), (0 : Fin 2)) ∧
    navigable cfgDiag ((1 : Fin 2), (1 : Fin 2)) ∧
    Q2.lt (time_increment_claimed cfgDiag ((0 : Fin 2), (0 : Fin 2))
        ((1 : Fin 2), (1 : Fin 2)))
      (time_increment cfgDiag ((0 : Fin 2), (0 : Fin 2)) ((1 : Fin 2), (1 : Fin 2))) ∧
    ((runHead cfgDiag 1 (initState cfgDiag)).LABELS ((1 : Fin 2), (1 : Fin 2))).length
      = 1 ∧
    ((runHead cfgDiag 1 (initState cfgDiag)).LABELS ((1 : Fin 2), (1 : Fin 2))).countP
      (fun m => decide (Q2.lt (time_increment_claimed cfgDiag
        ((0 : Fin 2), (0 : Fin 2)) ((1 : Fin 2), (1 : Fin 2))) (Lab.time m))) = 1 :=
  ⟨by decide, by decide, by decide, by decide, by decide⟩

theorem neighbors4_mem_iff {u v : Fin R × Fin C} :
    v ∈ neighbors4 R C u ↔
      ∃ d ∈ directions4, (v.1 : ℤ) = (u.1 : ℤ) + d.1 ∧ (v.2 : ℤ) = (u.2 : ℤ) + d.2 := by
  constructor
  · intro h
    simp only [neighbors4, List.mem_filterMap] at h
    obtain ⟨d, hd, hsome⟩ := h
    refine ⟨d, hd, ?_⟩
    split at hsome
    case isTrue hb =>
      obtain ⟨hb1, hb2, hb3, hb4⟩ := hb
      have hv := Option.some.inj hsome
      constructor
      · have : (v.1 : ℕ) = ((u.1 : ℤ) + d.1).toNat := by rw [← hv]
        omega
      · have : (v.2 : ℕ) = ((u.2 : ℤ) + d.2).toNat := by rw [← hv]
        omega
    case isFalse => exact absurd hsome (by simp)
  · rintro ⟨d, hd, h1, h2⟩
    simp only [neighbors4, List.mem_filterMap]
    refine ⟨d, hd, ?_⟩
    have hb : 0 ≤ (u.1 : ℤ) + d.1 ∧ (u.1 : ℤ) + d.1 < R ∧
        0 ≤ (u.2 : ℤ) + d.2 ∧ (u.2 : ℤ) + d.2 < C := by
      have := v.1.isLt
      have := v.2.isLt
      omega
    rw [dif_pos hb]
    have e1 : ((u.1 : ℤ) + d.1).toNat = (v.1 : ℕ) := by omega
    have e2 : ((u.2 : ℤ) + d.2).toNat = (v.2 : ℕ) := by omega
    congr 1
    refine Prod.ext ?_ ?_ <;> simp only [Fin.ext_iff]
    · exact e1
    · exact e2

theorem neighbors4_symm {u v : Fin R × Fin C} (h : v ∈ neighbors4 R C u) :
    u ∈ neighbors4 R C v := by
  rw [neighbors4_mem_iff] at h ⊢
  obtain ⟨d, hd, h1, h2⟩ := h
  refine ⟨(-d.1, -d.2), ?_, by omega, by omega⟩
  simp only [directions4, List.mem_cons, List.not_mem_nil, or_false] at hd ⊢
  rcases hd with rfl | rfl | rfl | rfl <;> norm_num

theorem neighbors4_nodup (u : Fin R × Fin C) : (neighbors4 R C u).Nodup := by
  unfold neighbors4
  refine List.Nodup.filterMap ?_ (by decide)
  intro a b v hva hvb
  simp only [Option.mem_def] at hva hvb
  have ha : (0 ≤ (u.1 : ℤ) + a.1 ∧ (u.1 : ℤ) + a.1 < R ∧ 0 ≤ (u.2 : ℤ) + a.2 ∧
      (u.2 : ℤ) + a.2 < C) ∧ (v.1 : ℤ) = (u.1 : ℤ) + a.1 ∧ (v.2 : ℤ) = (u.2 : ℤ) + a.2 := by
    split at hva
    case isTrue hb =>
      have hv := Option.some.inj hva
      refine ⟨hb, ?_, ?_⟩
      · have : (v.1 : ℕ) = ((u.1 : ℤ) + a.1).toNat := by rw [← hv]
        omega
      · have : (v.2 : ℕ) = ((u.2 : ℤ) + a.2).toNat := by rw [← hv]
        omega
    case isFalse => exact absurd hva (by simp)
  have hb2 : (v.1 : ℤ) = (u.1 : ℤ) + b.1 ∧ (v.2 : ℤ) = (u.2 : ℤ) + b.2 := by
    split at hvb
    case isTrue hb =>
      have hv := Option.some.inj hvb
      constructor
      · have : (v.1 : ℕ) = ((u.1 : ℤ) + b.1).toNat := by rw [← hv]
        omega
      · have : (v.2 : ℕ) = ((u.2 : ℤ) + b.2).toNat := by rw [← hv]
        omega
    case isFalse => exact absurd hvb (by simp)
  have : a.1 = b.1 ∧ a.2 = b.2 := by omega
  exact Prod.ext this.1 this.2

theorem bfs_news_mem {g : Fin R × Fin C → GridCell} {v w : Fin R × Fin C}
    {reach : List (Fin R × Fin C)} :
    w ∈ bfs_news R C g v reach ↔
      w ∈ neighbors4 R C v ∧ (g w).is_clickable = true ∧ w ∉ reach := by
  simp [bfs_news, List.mem_filter]

theorem bfs_reach_cons (g : Fin R × Fin C → GridCell) (fuel : ℕ)
    (v : Fin R × Fin C) (rest reach : List (Fin R × Fin C)) :
    bfs_reach R C g (fuel + 1) (v :: rest) reach =
      bfs_reach R C g fuel (rest ++ bfs_news R C g v reach)
        (reach ++ bfs_news R C g v reach) := rfl

/-- The visited list only grows. -/
theorem bfs_reach_mono (g : Fin R × Fin C → GridCell) :
    ∀ (fuel : ℕ) (queue reach : List (Fin R × Fin C)) (v : Fin R × Fin C),
      v ∈ reach → v ∈ bfs_reach R C g fuel queue reach := by
  intro fuel
  induction fuel with
  | zero => intro queue reach v hv; exact hv
  | succ f ih =>
    intro queue reach v hv
    match queue with
    | [] => exact hv
    | q :: rest =>
      rw [bfs_reach_cons]
      exact ih _ _ v (List.mem_append_left _ hv)

/-- Everything the loop visits is either initially visited or reachable
from a queue entry over navigable cells. -/
theorem bfs_reach_sound (g : Fin R × Fin C → GridCell) :
    ∀ (fuel : ℕ) (queue reach : List (Fin R × Fin C)) (v : Fin R × Fin C),
      v ∈ bfs_reach R C g fuel queue reach →
      v ∈ reach ∨ ∃ q ∈ queue, ReachRel4 R C g q v := by
  intro fuel
  induction fuel with
  | zero => intro queue reach v hv; exact Or.inl hv
  | succ f ih =>
    intro queue reach v hv
    match queue with
    | [] => exact Or.inl hv
    | q :: rest =>
      rw [bfs_reach_cons] at hv
      rcases ih _ _ v hv with h | ⟨q2, hq2, hreach⟩
      · rcases List.mem_append.mp h with h | h
        · exact Or.inl h
        · obtain ⟨hnb, hnav, -⟩ := bfs_news_mem.mp h
          exact Or.inr ⟨q, by simp,
            Relation.ReflTransGen.single ⟨hnb, hnav⟩⟩
      · rcases List.mem_append.mp hq2 with h | h
        · exact Or.inr ⟨q2, by simp [h], hreach⟩
        · obtain ⟨hnb, hnav, -⟩ := bfs_news_mem.mp h
          exact Or.inr ⟨q, by simp,
            Relation.ReflTransGen.trans (Relation.ReflTransGen.single ⟨hnb, hnav⟩) hreach⟩

/-- Everything the loop visits is initially visited or navigable. -/
theorem bfs_reach_nav (g : Fin R × Fin C → GridCell) :
    ∀ (fuel : ℕ) (queue reach : List (Fin R × Fin C)) (v : Fin R × Fin C),
      v ∈ bfs_reach R C g fuel queue reach →
      v ∈ reach ∨ (g v).is_clickable = true := by
  intro fuel
  induction fuel with
  | zero => intro queue reach v hv; exact Or.inl hv
  | succ f ih =>
    intro queue reach v hv
    match queue with
    | [] => exact Or.inl hv
    | q :: rest =>
      rw [bfs_reach_cons] at hv
      rcases ih _ _ v hv with h | h
      · rcases List.mem_append.mp h with h | h
        · exact Or.inl h
        · exact Or.inr (bfs_news_mem.mp h).2.1
      · exact Or.inr h

/-- With enough fuel, the visited list the loop returns is closed under
navigable 4-connected steps. -/
theorem bfs_reach_closed (g : Fin R × Fin C → GridCell) :
    ∀ (fuel : ℕ) (queue reach : List (Fin R × Fin C)),
      reach.Nodup →
      (∀ v ∈ queue, v ∈ reach) →
      (∀ v ∈ reach, v ∈ queue ∨
        ∀ w ∈ neighbors4 R C v, (g w).is_clickable = true → w ∈ reach) →
      5 * (R * C + 1 - reach.length) + queue.length ≤ fuel →
      ∀ v ∈ bfs_reach R C g fuel queue reach, ∀ w ∈ neighbors4 R C v,
        (g w).is_clickable = true → w ∈ bfs_reach R C g fuel queue reach := by
  intro fuel
  induction fuel with
  | zero =>
    intro queue reach hnd hq hcl hm
    exfalso
    have hlen := List.Nodup.length_le_card hnd
    have hcard : Fintype.card (Fin R × Fin C) = R * C := by simp
    rw [hcard] at hlen
    omega
  | succ f ih =>
    intro queue reach hnd hq hcl hm
    match queue with
    | [] =>
      intro v hv w hw hnavw
      rcases hcl v hv with h | h
      · exact absurd h (by simp)
      · exact h w hw hnavw
    | q :: rest =>
      rw [bfs_reach_cons]
      have hq_reach : q ∈ reach := hq q (by simp)
      have hnews_nodup : (bfs_news R C g q reach).Nodup :=
        List.Nodup.filter _ (neighbors4_nodup q)
      have hnews_fresh : ∀ w ∈ bfs_news R C g q reach, w ∉ reach :=
        fun w hw => (bfs_news_mem.mp hw).2.2
      have hnd2 : (reach ++ bfs_news R C g q reach).Nodup := by
        refine List.Nodup.append hnd hnews_nodup ?_
        intro a ha hb
        exact hnews_fresh a hb ha
      have hlen2 := List.Nodup.length_le_card hnd2
      have hcard : Fintype.card (Fin R × Fin C) = R * C := by simp
      rw [hcard, List.length_append] at hlen2
      refine ih (rest ++ bfs_news R C g q reach) (reach ++ bfs_news R C g q reach)
        hnd2 ?_ ?_ ?_
      · intro v hv
        rcases List.mem_append.mp hv with h | h
        · exact List.mem_append_left _ (hq v (by simp [h]))
        · exact List.mem_append_right _ h
      · intro v hv
        rcases List.mem_append.mp hv with h | h
        · rcases hcl v h with h2 | h2
          · rcases List.mem_cons.mp h2 with h3 | h3
            · subst h3
              refine Or.inr ?_
              intro w hw hnavw
              by_cases hwr : w ∈ reach
              · exact List.mem_append_left _ hwr
              · exact List.mem_append_right _ (bfs_news_mem.mpr ⟨hw, hnavw, hwr⟩)
            · exact Or.inl (List.mem_append_left _ h3)
          · refine Or.inr ?_
            intro w hw hnavw
            exact List.mem_append_left _ (h2 w hw hnavw)
        · exact Or.inl (List.mem_append_right _ h)
      · rw [List.length_append, List.length_append]
        have hml : 5 * (R * C + 1 - reach.length) + (q :: rest).length ≤ f + 1 := hm
        simp only [List.length_cons] at hml
        omega

theorem findAnchor_nav {g : Fin R × Fin C → GridCell} {anchor : Fin R × Fin C}
    (h : findAnchor R C g = some anchor) : (g anchor).is_clickable = true := by
  unfold findAnchor at h
  simpa using List.find?_some h

theorem filter_char {g : Fin R × Fin C → GridCell} {anchor : Fin R × Fin C}
    (h : findAnchor R C g = some anchor) :
    init_grid_cells_filter R C g = fun v =>
      if v ∈ filterReach R C g anchor then g v
      else { g v with is_clickable := false } := by
  unfold init_grid_cells_filter filterReach
  rw [h]

theorem filterReach_anchor (g : Fin R × Fin C → GridCell) (anchor : Fin R × Fin C) :
    anchor ∈ filterReach R C g anchor :=
  bfs_reach_mono g _ _ _ anchor (by simp)

theorem filterReach_closed (g : Fin R × Fin C → GridCell) (anchor : Fin R × Fin C) :
    ∀ v ∈ filterReach R C g anchor, ∀ w ∈ neighbors4 R C v,
      (g w).is_clickable = true → w ∈ filterReach R C g anchor := by
  refine bfs_reach_closed g _ _ _ (List.nodup_singleton anchor) (by simp) ?_ ?_
  · intro v hv
    exact Or.inl hv
  · simp only [List.length_singleton]
    omega

theorem filterReach_sound (g : Fin R × Fin C → GridCell) (anchor : Fin R × Fin C) :
    ∀ v ∈ filterReach R C g anchor, ReachRel4 R C g anchor v := by
  intro v hv
  rcases bfs_reach_sound g _ _ _ v hv with h | ⟨q, hq, hreach⟩
  · have : v = anchor := by simpa using h
    subst this
    exact Relation.ReflTransGen.refl
  · have : q = anchor := by simpa using hq
    subst this
    exact hreach

theorem filterReach_complete (g : Fin R × Fin C → GridCell) (anchor : Fin R × Fin C) :
    ∀ v, ReachRel4 R C g anchor v → v ∈ filterReach R C g anchor := by
  intro v h
  induction h with
  | refl => exact filterReach_anchor g anchor
  | tail hsteps hstep ih => exact filterReach_closed g anchor _ ih _ hstep.1 hstep.2

theorem filterReach_nav {g : Fin R × Fin C → GridCell} {anchor : Fin R × Fin C}
    (hA : findAnchor R C g = some anchor) :
    ∀ v ∈ filterReach R C g anchor, (g v).is_clickable = true := by
  intro v hv
  rcases bfs_reach_nav g _ _ _ v hv with h | h
  · have : v = anchor := by simpa using h
    subst this
    exact findAnchor_nav hA
  · exact h

/-- C6: after the connectivity filter runs, navigability is only ever
cleared (never set) and every other cell attribute is unchanged; and when
an anchor exists (the first navigable cell in row-major order), every cell
left navigable is connected to the anchor by a 4-connected path running
inside the remaining navigable region, so the remaining navigable cells
form a single 4-connected component. -/
theorem c6_connectivity_filter (R C : ℕ) (g : Fin R × Fin C → GridCell) :
    (∀ v, ((init_grid_cells_filter R C g) v).is_clickable = true →
      (g v).is_clickable = true) ∧
    (∀ v, ((init_grid_cells_filter R C g) v).risk = (g v).risk ∧
      ((init_grid_cells_filter R C g) v).time = (g v).time ∧
      ((init_grid_cells_filter R C g) v).fuel = (g v).fuel ∧
      ((init_grid_cells_filter R C g) v).weather = (g v).weather) ∧
    (∀ anchor, findAnchor R C g = some anchor →
      (∀ v, ((init_grid_cells_filter R C g) v).is_clickable = true →
        ConnWithin R C (init_grid_cells_filter R C g) anchor v) ∧
      (∀ p q, ((init_grid_cells_filter R C g) p).is_clickable = true →
        ((init_grid_cells_filter R C g) q).is_clickable = true →
        ConnWithin R C (init_grid_cells_filter R C g) p q)) := by
  have hcases : ∀ v, init_grid_cells_filter R C g v = g v ∨
      init_grid_cells_filter R C g v = { g v with is_clickable := false } := by
    intro v
    unfold init_grid_cells_filter
    cases findAnchor R C g with
    | none => exact Or.inl rfl
    | some anchor =>
      simp only
      by_cases hv : v ∈ bfs_reach R C g (5 * (R * C + 1)) [anchor] [anchor]
      · rw [if_pos hv]
        exact Or.inl rfl
      · rw [if_neg hv]
        exact Or.inr rfl
  refine ⟨?_, ?_, ?_⟩
  · intro v hnav
    rcases hcases v with h | h <;> rw [h] at hnav
    · exact hnav
    · exact absurd hnav (by simp)
  · intro v
    rcases hcases v with h | h <;> rw [h] <;> exact ⟨rfl, rfl, rfl, rfl⟩
  · intro anchor hA
    have hch := filter_char hA
    have hnav_iff : ∀ v, ((init_grid_cells_filter R C g) v).is_clickable = true ↔
        v ∈ filterReach R C g anchor := by
      intro v
      rw [hch]
      by_cases hv : v ∈ filterReach R C g anchor
      · simp only [if_pos hv]
        exact ⟨fun _ => hv, fun _ => filterReach_nav hA v hv⟩
      · simp only [if_neg hv]
        constructor
        · intro hcontra
          exact absurd hcontra (by simp)
        · intro hcontra
          exact absurd hcontra hv
    have hconn : ∀ v, v ∈ filterReach R C g anchor →
        ConnWithin R C (init_grid_cells_filter R C g) anchor v := by
      intro v hv
      have hr := filterReach_sound g anchor v hv
      clear hv
      induction hr with
      | refl => exact Relation.ReflTransGen.refl
      | @tail a b hsteps hstep ih =>
        refine Relation.ReflTransGen.tail ih ?_
        have haR : a ∈ filterReach R C g anchor := filterReach_complete g anchor a hsteps
        have hbR : b ∈ filterReach R C g anchor :=
          filterReach_closed g anchor a haR b hstep.1 hstep.2
        exact ⟨hstep.1, (hnav_iff a).mpr haR, (hnav_iff b).mpr hbR⟩
    have hsymm : Symmetric (stepWithin R C (init_grid_cells_filter R C g)) := by
      intro a b ⟨hnb, hna, hnb2⟩
      exact ⟨neighbors4_symm hnb, hnb2, hna⟩
    constructor
    · intro v hnav
      exact hconn v ((hnav_iff v).mp hnav)
    · intro p q hp hq
      have h1 : ConnWithin R C (init_grid_cells_filter R C g) anchor p :=
        hconn p ((hnav_iff p).mp hp)
      have h2 : ConnWithin R C (init_grid_cells_filter R C g) anchor q :=
        hconn q ((hnav_iff q).mp hq)
      exact Relation.ReflTransGen.trans
        (Relation.ReflTransGen.symmetric hsymm h1) h2

/-- C6 witness: on gPocket the anchor is the top-left cell, the isolated
right cell loses its navigability, the anchor keeps it, and the general
theorem applies. -/
theorem c6_witness :
    findAnchor 1 3 gPocket = some ((0 : Fin 1), (0 : Fin 3)) ∧
    (gPocket ((0 : Fin 1), (2 : Fin 3))).is_clickable = true ∧
    ((init_grid_cells_filter 1 3 gPocket) ((0 : Fin 1), (2 : Fin 3))).is_clickable
      = false ∧
    ((init_grid_cells_filter 1 3 gPocket) ((0 : Fin 1), (0 : Fin 3))).is_clickable
      = true ∧
    (∀ v, ((init_grid_cells_filter 1 3 gPocket) v).is_clickable = true →
      (gPocket v).is_clickable = true) :=
  ⟨by decide, by decide, by decide, by decide, (c6_connectivity_filter 1 3 gPocket).1⟩

theorem scan_range_mem {len cur j : ℕ} (h : j ∈ scan_range len cur) :
    cur + 2 ≤ j ∧ j ≤ len - 1 := by
  simp only [scan_range, List.mem_map, List.mem_range] at h
  obtain ⟨k, hk, rfl⟩ := h
  omega

theorem furthest_visible_gt (R C : ℕ) (g : Fin R × Fin C → GridCell)
    (path : List (ℤ × ℤ)) (cur : ℕ) (h : cur < path.length - 1) :
    cur < furthest_visible R C g path cur ∧
      furthest_visible R C g path cur ≤ path.length - 1 := by
  unfold furthest_visible
  cases hfind : (scan_range path.length cur).find?
      (fun j => line_of_sight R C g (path.getD cur (0, 0)) (path.getD j (0, 0))) with
  | none =>
    show cur < cur + 1 ∧ cur + 1 ≤ path.length - 1
    omega
  | some j =>
    show cur < j ∧ j ≤ path.length - 1
    have := scan_range_mem (List.mem_of_find?_eq_some hfind)
    omega

theorem prune_go_props (R C : ℕ) (g : Fin R × Fin C → GridCell)
    (path : List (ℤ × ℤ)) :
    ∀ (n cur : ℕ) (acc : List (ℤ × ℤ)), path.length - cur ≤ n → acc ≠ [] →
      (prune_go R C g path cur acc).head? = acc.head? ∧
      (prune_go R C g path cur acc).length ≤ acc.length + (path.length - 1 - cur) ∧
      (prune_go R C g path cur acc).getLast? =
        (if cur < path.length - 1 then some (path.getD (path.length - 1) (0, 0))
         else acc.getLast?) := by
  intro n
  induction n with
  | zero =>
    intro cur acc hn hacc
    have hstop : ¬ cur < path.length - 1 := by omega
    rw [prune_go, dif_neg hstop]
    exact ⟨rfl, by omega, by rw [if_neg hstop]⟩
  | succ m ih =>
    intro cur acc hn hacc
    by_cases hcur : cur < path.length - 1
    · rw [prune_go, dif_pos hcur]
      have hfb := furthest_visible_gt R C g path cur hcur
      obtain ⟨ih1, ih2, ih3⟩ := ih (furthest_visible R C g path cur)
        (acc ++ [path.getD (furthest_visible R C g path cur) (0, 0)])
        (by omega) (by simp)
      refine ⟨?_, ?_, ?_⟩
      · rw [ih1]
        cases acc with
        | nil => exact absurd rfl hacc
        | cons a as => simp
      · rw [List.length_append, List.length_singleton] at ih2
        omega
      · rw [ih3]
        by_cases hf2 : furthest_visible R C g path cur < path.length - 1
        · rw [if_pos hf2, if_pos hcur]
        · rw [if_neg hf2, if_pos hcur]
          have hfeq : furthest_visible R C g path cur = path.length - 1 := by omega
          rw [List.getLast?_concat, hfeq]
    · rw [prune_go, dif_neg hcur]
      exact ⟨rfl, by omega, by rw [if_neg hcur]⟩

theorem head?_eq_getD {path : List (ℤ × ℤ)} (h : path ≠ []) :
    path.head? = some (path.getD 0 (0, 0)) := by
  cases path with
  | nil => exact absurd rfl h
  | cons a as => rfl

theorem getLast?_eq_getD {path : List (ℤ × ℤ)} (h : path ≠ []) :
    path.getLast? = some (path.getD (path.length - 1) (0, 0)) := by
  have hlen : 0 < path.length := List.length_pos.mpr h
  rw [List.getLast?_eq_getElem?, List.getD_eq_getElem?_getD]
  cases hx : path[path.length - 1]? with
  | none =>
    rw [List.getElem?_eq_none_iff] at hx
    omega
  | some a => simp

/-- C8: for every grid and every input waypoint list, the string-pulling
loop of prune_path advances its current index strictly on every iteration
(which is why it terminates), and the pruned list is never longer than the
input and keeps the first and the last input waypoint. -/
theorem c8_prune_path_props (R C : ℕ) (g : Fin R × Fin C → GridCell)
    (path : List (ℤ × ℤ)) :
    (∀ cur, cur < path.length - 1 → cur < furthest_visible R C g path cur) ∧
    (prune_path R C g path).length ≤ path.length ∧
    (prune_path R C g path).head? = path.head? ∧
    (prune_path R C g path).getLast? = path.getLast? := by
  refine ⟨fun cur h => (furthest_visible_gt R C g path cur h).1, ?_, ?_, ?_⟩ <;>
    unfold prune_path <;> by_cases hlen : path.length < 3
  · rw [if_pos hlen]
  · rw [if_neg hlen]
    obtain ⟨-, h2, -⟩ := prune_go_props R C g path path.length 0
      [path.getD 0 (0, 0)] (by omega) (by simp)
    simp only [List.length_singleton] at h2
    omega
  · rw [if_pos hlen]
  · rw [if_neg hlen]
    obtain ⟨h1, -, -⟩ := prune_go_props R C g path path.length 0
      [path.getD 0 (0, 0)] (by omega) (by simp)
    rw [h1]
    have hpne : path ≠ [] := by
      intro hc
      rw [hc] at hlen
      simp at hlen
    rw [head?_eq_getD hpne]
    rfl
  · rw [if_pos hlen]
  · rw [if_neg hlen]
    obtain ⟨-, -, h3⟩ := prune_go_props R C g path path.length 0
      [path.getD 0 (0, 0)] (by omega) (by simp)
    rw [h3, if_pos (by omega), getLast?_eq_getD
      (by intro hc; rw [hc] at hlen; simp at hlen)]
